import Mathlib

/-!
Verification of the PressProof content-extraction and text-reflow core.

This file gives a shallow embedding, over `List Char`, of the string-rewriting
pipeline in `pressproof/scraper.py` (`_reflow_segment`, `_reflow`,
`_text_from_dom`, `getCurrentNextPageURL`) and of the pagination loop in
`pressproof/__main__.py` (`proofRead`), and proves or refutes the specified
properties about them.

Modelling conventions:
- Strings are `List Char`; Python byte strings are `List Nat`.
- Each `re.sub` pass is embedded as a recursive function with the exact
  leftmost, non-overlapping, resume-after-match semantics of `re.sub`
  (greedy/lazy quantifier behaviour included); where a pass is embedded by a
  reformulated scan (for example a right fold), the reformulation is
  extensionally equal to the regex pass.
- `\s` and `str.isspace`/`str.strip` use the same whitespace set, which is the
  set Python uses for both.
- Unicode NFKC normalization is modelled character-wise: on the character set
  exercised in this development every character is NFKC-stable except
  NO-BREAK SPACE, which compatibility-decomposes to SPACE; composition of
  combining sequences is not modelled.
- cp1252 encoding and strict UTF-8 decoding are embedded in full.
-/

namespace PressProof

/-- Strings, modelled as lists of characters. -/
abbrev Str := List Char

/-- The whitespace set of Python's regex `\s` on `str` patterns, which
coincides with `str.isspace` (hence also with the set stripped by
`str.strip()`). -/
def isSpace (c : Char) : Bool :=
  c = ' ' ∨ c = '\t' ∨ c = '\n' ∨ c.toNat = 0xB ∨ c.toNat = 0xC ∨ c = '\r' ∨
  (0x1C ≤ c.toNat ∧ c.toNat ≤ 0x1F) ∨ c.toNat = 0x85 ∨ c.toNat = 0xA0 ∨
  c.toNat = 0x1680 ∨ (0x2000 ≤ c.toNat ∧ c.toNat ≤ 0x200A) ∨
  c.toNat = 0x2028 ∨ c.toNat = 0x2029 ∨ c.toNat = 0x202F ∨
  c.toNat = 0x205F ∨ c.toNat = 0x3000

/-- Horizontal whitespace `[ \t]` as used by the tidy passes. -/
def isHt (c : Char) : Bool := c = ' ' ∨ c = '\t'

/-- The invisible-character class `_INVISIBLES`:
`[​-‏‪-‮⁠﻿­]`. -/
def isInvisible (c : Char) : Bool :=
  (0x200B ≤ c.toNat ∧ c.toNat ≤ 0x200F) ∨
  (0x202A ≤ c.toNat ∧ c.toNat ≤ 0x202E) ∨
  c.toNat = 0x2060 ∨ c.toNat = 0xFEFF ∨ c.toNat = 0xAD

/-- The closing-punctuation class `[.,;:!?%)\]\}]` of the punctuation-hugging
rule. -/
def isPunct (c : Char) : Bool :=
  c = '.' ∨ c = ',' ∨ c = ';' ∨ c = ':' ∨ c = '!' ∨ c = '?' ∨ c = '%' ∨
  c = ')' ∨ c = ']' ∨ c = '}'

/-- The wrap-marker sentinel `WRAP = "⟦WRAP⟧"`. -/
def WRAP : Str := ['⟦', 'W', 'R', 'A', 'P', '⟧']

/-- The backtick character. -/
def tick : Char := Char.ofNat 96

/-- Does `l` start with `pat`? -/
def startsW : Str → Str → Bool
  | [], _ => true
  | _ :: _, [] => false
  | p :: ps, c :: t => p = c && startsW ps t

/-- Does `pat` occur as a contiguous substring of `l`? -/
def hasSubstr (pat : Str) : Str → Bool
  | [] => startsW pat []
  | c :: t => startsW pat (c :: t) || hasSubstr pat t

/-- Drop the longest suffix all of whose characters satisfy `p`. -/
def dropRightWhile (p : Char → Bool) : Str → Str
  | [] => []
  | c :: t =>
    let r := dropRightWhile p t
    if r = [] ∧ p c then [] else c :: r

/-- Python `str.strip()`: remove leading and trailing whitespace. -/
def pyStrip (l : Str) : Str := dropRightWhile isSpace (l.dropWhile isSpace)

/-- Python `str.split()` (no argument): split on whitespace runs, no empty
pieces. -/
def splitWsAux : Str → List Str
  | [] => [[]]
  | c :: t =>
    let r := splitWsAux t
    if isSpace c then [] :: r
    else (c :: r.headI) :: r.tail

/-- Python whitespace split without empty pieces, as used for multi-valued
HTML attributes (`class`, `rel`). -/
def splitWs (l : Str) : List Str := (splitWsAux l).filter (· ≠ [])

/-! Mojibake heuristic `_maybe_fix_mojibake`. -/

/-- Does the corruption-signature regex
`(?:Ã.|Â.|â€|â€™|â€œ|â€“|â€”|â€¢|â€¦)` match somewhere in the string?  For a
boolean search the alternatives starting with `â€` are subsumed by `â€`
itself, and `.` matches any character except newline. -/
def hasMojibakeSigns : Str → Bool
  | c1 :: c2 :: t =>
    if (c1 = 'Ã' ∨ c1 = 'Â') ∧ c2 ≠ '\n' then true
    else if c1 = 'â' ∧ c2 = '€' then true
    else hasMojibakeSigns (c2 :: t)
  | _ => false

/-- Encode one character as a cp1252 byte (`str.encode("cp1252")`,
strict errors).  Code points below 0x80 and in [0xA0, 0xFF] map to
themselves; the 27 extra characters of the 0x80–0x9F block are listed;
everything else is unencodable. -/
def cp1252Byte (c : Char) : Option Nat :=
  let n := c.toNat
  if n < 0x80 then some n
  else if 0xA0 ≤ n ∧ n ≤ 0xFF then some n
  else if n = 0x20AC then some 0x80
  else if n = 0x201A then some 0x82
  else if n = 0x192 then some 0x83
  else if n = 0x201E then some 0x84
  else if n = 0x2026 then some 0x85
  else if n = 0x2020 then some 0x86
  else if n = 0x2021 then some 0x87
  else if n = 0x2C6 then some 0x88
  else if n = 0x2030 then some 0x89
  else if n = 0x160 then some 0x8A
  else if n = 0x2039 then some 0x8B
  else if n = 0x152 then some 0x8C
  else if n = 0x17D then some 0x8E
  else if n = 0x2018 then some 0x91
  else if n = 0x2019 then some 0x92
  else if n = 0x201C then some 0x93
  else if n = 0x201D then some 0x94
  else if n = 0x2022 then some 0x95
  else if n = 0x2013 then some 0x96
  else if n = 0x2014 then some 0x97
  else if n = 0x2DC then some 0x98
  else if n = 0x2122 then some 0x99
  else if n = 0x161 then some 0x9A
  else if n = 0x203A then some 0x9B
  else if n = 0x153 then some 0x9C
  else if n = 0x17E then some 0x9E
  else if n = 0x178 then some 0x9F
  else none

/-- Encode a whole string as cp1252 bytes; fails on the first unencodable
character, like Python's strict `encode`. -/
def encodeCp1252 : Str → Option (List Nat)
  | [] => some []
  | c :: t => do
    let b ← cp1252Byte c
    let bs ← encodeCp1252 t
    pure (b :: bs)

/-- Is `n` a UTF-8 continuation byte (10xxxxxx)? -/
def isCont (n : Nat) : Bool := 0x80 ≤ n ∧ n ≤ 0xBF

/-- Strict UTF-8 decoding (`bytes.decode("utf-8")`): rejects truncated and
overlong sequences, surrogates, and code points above 0x10FFFF. -/
def utf8Decode : List Nat → Option Str
  | [] => some []
  | b1 :: t =>
    if b1 ≤ 0x7F then do
      let r ← utf8Decode t
      pure (Char.ofNat b1 :: r)
    else if 0xC2 ≤ b1 ∧ b1 ≤ 0xDF then
      match t with
      | b2 :: t2 =>
        if isCont b2 then do
          let r ← utf8Decode t2
          pure (Char.ofNat ((b1 - 0xC0) * 0x40 + (b2 - 0x80)) :: r)
        else none
      | _ => none
    else if 0xE0 ≤ b1 ∧ b1 ≤ 0xEF then
      match t with
      | b2 :: b3 :: t3 =>
        let lo2 := if b1 = 0xE0 then 0xA0 else 0x80
        let hi2 := if b1 = 0xED then 0x9F else 0xBF
        if (lo2 ≤ b2 ∧ b2 ≤ hi2) ∧ isCont b3 then do
          let r ← utf8Decode t3
          pure (Char.ofNat ((b1 - 0xE0) * 0x1000 + (b2 - 0x80) * 0x40 + (b3 - 0x80)) :: r)
        else none
      | _ => none
    else if 0xF0 ≤ b1 ∧ b1 ≤ 0xF4 then
      match t with
      | b2 :: b3 :: b4 :: t4 =>
        let lo2 := if b1 = 0xF0 then 0x90 else 0x80
        let hi2 := if b1 = 0xF4 then 0x8F else 0xBF
        if (lo2 ≤ b2 ∧ b2 ≤ hi2) ∧ isCont b3 ∧ isCont b4 then do
          let r ← utf8Decode t4
          pure (Char.ofNat ((b1 - 0xF0) * 0x40000 + (b2 - 0x80) * 0x1000 +
            (b3 - 0x80) * 0x40 + (b4 - 0x80)) :: r)
        else none
      | _ => none
    else none

/-- The cp1252-encode, UTF-8-decode repair attempt
(`s.encode("cp1252").decode("utf-8")`), as a fallible computation. -/
def transcode (s : Str) : Option Str := (encodeCp1252 s).bind utf8Decode

/-- Embedding of `_maybe_fix_mojibake`: repair only when a corruption
signature is present; any transcoding failure returns the input unchanged. -/
def maybe_fix_mojibake (s : Str) : Str :=
  if hasMojibakeSigns s then
    match transcode s with
    | some r => r
    | none => s
  else s

/-! Reflow passes of `_reflow_segment`, in pipeline order. -/

/-- Character-wise model of `unicodedata.normalize("NFKC", ·)`.  Real NFKC
compatibility-decomposes many characters (`ﬁ` to `fi`, `²` to `2`) and
composes combining sequences (`A` + U+0303 to `Ã`), none of which a
character-wise map can express; the model maps NO-BREAK SPACE (U+00A0) to
SPACE — its real compatibility decomposition — and fixes every other
character.  It agrees with real NFKC exactly on strings of `nfkcInert`
characters, and every universally quantified theorem of this development
that runs the pipeline on symbolic input restricts its quantifiers to that
set. -/
def nfkcChar (c : Char) : Str := if c.toNat = 0xA0 then [' '] else [c]

/-- Model of NFKC normalization, applied character-wise. -/
def nfkc (s : Str) : Str := s.flatMap nfkcChar

/-- Characters on which the character-wise NFKC model is exact: ASCII, the
sentinel brackets U+27E6/U+27E7, NO-BREAK SPACE and the stripped invisible
characters.  None of these has a compatibility or canonical decomposition
(except NBSP, whose decomposition to SPACE the model applies) and none is a
combining mark or composes with a preceding character, so on strings made
of them `unicodedata.normalize("NFKC", ·)` acts exactly as `nfkc`. -/
def nfkcInert (c : Char) : Bool :=
  c.toNat < 0x80 ∨ c = '⟦' ∨ c = '⟧' ∨ c.toNat = 0xA0 ∨ isInvisible c

/-- ASCII whitespace other than the line breaks: SPACE, TAB, VERTICAL TAB,
FORM FEED and the ASCII separator controls 0x1C–0x1F.  Each matches the
regex class `\s`, is NFKC-inert and survives every pass before the hugging
rule unchanged. -/
def isAsciiBlank (c : Char) : Bool :=
  isSpace c ∧ c.toNat < 0x80 ∧ c ≠ '\n' ∧ c ≠ '\r'

/-- Pass 2, `t.replace(" ", " ")`. -/
def replaceNbsp (s : Str) : Str :=
  s.map (fun c => if c.toNat = 0xA0 then ' ' else c)

/-- First half of pass 3, `t.replace("\r\n", "\n")` (leftmost,
non-overlapping). -/
def replaceCrlf : Str → Str
  | a :: b :: t =>
    if a = '\r' ∧ b = '\n' then '\n' :: replaceCrlf t
    else a :: replaceCrlf (b :: t)
  | l => l

/-- Pass 3, `t.replace("\r\n", "\n").replace("\r", "\n")`. -/
def normNewlines (s : Str) : Str :=
  (replaceCrlf s).map (fun c => if c = '\r' then '\n' else c)

/-- Pass 4, `_INVISIBLES.sub("", t)`: outright removal of the invisible
characters. -/
def stripInvisibles (s : Str) : Str := s.filter (fun c => !isInvisible c)

/-- Pass 5 (and the first final-tidy pass), `re.sub(r"[ \t]+\n", "\n", t)`.
The substitution deletes exactly those horizontal-whitespace characters that
are separated from a following newline only by horizontal whitespace; it is
computed here by a right-to-left scan, which is extensionally equal to the
regex pass. -/
def trimWsBeforeNl : Str → Str
  | [] => []
  | c :: t =>
    let r := trimWsBeforeNl t
    if isHt c ∧ r.headI = '\n' ∧ r ≠ [] then r else c :: r

/-- Scanner for pass 6, `re.sub(r"\n{3,}", "\n\n", t)`: `k` counts the
newlines already emitted in the current run (the greedy match truncates every
maximal newline run of length at least three to exactly two). -/
def collapseNlGo : Str → Nat → Str
  | [], _ => []
  | c :: t, k =>
    if c = '\n' then
      if 2 ≤ k then collapseNlGo t k else '\n' :: collapseNlGo t (k + 1)
    else c :: collapseNlGo t 0

/-- Pass 6, `re.sub(r"\n{3,}", "\n\n", t)`. -/
def collapseNl (s : Str) : Str := collapseNlGo s 0

/-- Pass 7, `re.sub(r"([^\n])\n(?!\n)([^\n])", r"\1⟦WRAP⟧\2", t)`: mark a
single newline between two non-newline characters with the sentinel.  The
lookahead `(?!\n)` is subsumed by the following `([^\n])`.  Note the match
consumes the character after the newline, and scanning resumes after it. -/
def markWraps : Str → Str
  | a :: b :: c :: t =>
    if a ≠ '\n' ∧ b = '\n' ∧ c ≠ '\n' then a :: (WRAP ++ c :: markWraps t)
    else a :: markWraps (b :: c :: t)
  | l => l

/-- Fuelled scanner for pass 8, `re.sub(r"⟦WRAP⟧\s+([.,;:!?%)\]\}])", r"\1", t)`:
delete the sentinel and the (at least one) whitespace characters when a closing
punctuation character follows.  `\s+` is greedy and the punctuation class is
disjoint from whitespace, so the match takes the maximal whitespace run. -/
def hugPunctF : Nat → Str → Str
  | 0, l => l
  | _ + 1, [] => []
  | fuel + 1, c :: t =>
    if startsW WRAP (c :: t) then
      let rest := (c :: t).drop 6
      let run := rest.takeWhile isSpace
      let rest2 := rest.dropWhile isSpace
      match rest2 with
      | p :: t2 =>
        if run ≠ [] ∧ isPunct p then p :: hugPunctF fuel t2
        else c :: hugPunctF fuel t
      | [] => c :: hugPunctF fuel t
    else c :: hugPunctF fuel t

/-- Pass 8 of `_reflow_segment`. -/
def hugPunct (s : Str) : Str := hugPunctF s.length s

/-- Fuelled scanner for pass 9, `re.sub(r";⟦WRAP⟧\s+\.", ";.", t)`. -/
def hugSemiF : Nat → Str → Str
  | 0, l => l
  | _ + 1, [] => []
  | fuel + 1, c :: t =>
    if c = ';' ∧ startsW WRAP t then
      let rest := t.drop 6
      let run := rest.takeWhile isSpace
      let rest2 := rest.dropWhile isSpace
      match rest2 with
      | p :: t2 =>
        if run ≠ [] ∧ p = '.' then ';' :: '.' :: hugSemiF fuel t2
        else c :: hugSemiF fuel t
      | [] => c :: hugSemiF fuel t
    else c :: hugSemiF fuel t

/-- Pass 9 of `_reflow_segment`. -/
def hugSemi (s : Str) : Str := hugSemiF s.length s

/-- Fuelled scanner for pass 10, `re.sub(r"\s*⟦WRAP⟧\s*", " ", t)`: every
remaining sentinel, with surrounding whitespace, becomes a single space.
A match at a position exists exactly when the maximal whitespace run starting
there is followed by the sentinel (backtracking `\s*` cannot help, since no
whitespace character starts the sentinel). -/
def wrapToSpaceF : Nat → Str → Str
  | 0, l => l
  | fuel + 1, l =>
    let r := l.dropWhile isSpace
    if startsW WRAP r then
      ' ' :: wrapToSpaceF fuel ((r.drop 6).dropWhile isSpace)
    else
      match l with
      | [] => []
      | c :: t => c :: wrapToSpaceF fuel t

/-- Pass 10 of `_reflow_segment`. -/
def wrapToSpace (s : Str) : Str := wrapToSpaceF s.length s

/-- Final-tidy pass `re.sub(r"\n[ \t]+", "\n", t)`: delete horizontal
whitespace that follows a newline (through horizontal whitespace).  The flag
records whether the previously kept character was a newline. -/
def trimWsAfterNlGo : Str → Bool → Str
  | [], _ => []
  | c :: t, afterNl =>
    if isHt c ∧ afterNl then trimWsAfterNlGo t afterNl
    else c :: trimWsAfterNlGo t (c = '\n')

/-- Final-tidy pass `re.sub(r"\n[ \t]+", "\n", t)`. -/
def trimWsAfterNl (s : Str) : Str := trimWsAfterNlGo s false

/-- Embedding of `_reflow_segment`: the full prose-normalization pipeline,
applied in source order. -/
def reflow_segment (t0 : Str) : Str :=
  let t := maybe_fix_mojibake t0
  let t := nfkc t
  let t := replaceNbsp t
  let t := normNewlines t
  let t := stripInvisibles t
  let t := trimWsBeforeNl t
  let t := collapseNl t
  let t := markWraps t
  let t := hugPunct t
  let t := hugSemi t
  let t := wrapToSpace t
  let t := trimWsBeforeNl t
  let t := trimWsAfterNl t
  t

/-! Code-span segmenter `_CODE_SPANS` and `_reflow`. -/

/-- A segment of the raw string: code spans are passed through unchanged,
prose segments are reflowed. -/
inductive Seg where
  | prose (s : Str)
  | code (s : Str)
deriving DecidableEq, Repr

/-- Find the earliest occurrence of a closing fence` ``` `in `l`; returns the
part before it and the part after it. -/
def findFence : Str → Option (Str × Str)
  | [] => none
  | c :: t =>
    if startsW [tick, tick, tick] (c :: t) then some ([], (c :: t).drop 3)
    else
      match findFence t with
      | some (pre, rest) => some (c :: pre, rest)
      | none => none

/-- Try to match `_CODE_SPANS = (?s)(```.*?```|`[^`\n]*`)` at the head of `l`:
first the fenced alternative (lazy `.*?` runs to the nearest closing fence),
then the inline alternative (lazy, no backtick or newline inside).  Returns
the matched span and the remainder. -/
def matchCodeAt (l : Str) : Option (Str × Str) :=
  if startsW [tick, tick, tick] l then
    match findFence (l.drop 3) with
    | some (body, rest) => some ([tick, tick, tick] ++ body ++ [tick, tick, tick], rest)
    | none => inlineAt l
  else inlineAt l
where
  /-- The inline alternative: a backtick, a run without backtick or newline,
  a backtick. -/
  inlineAt : Str → Option (Str × Str)
  | c :: t =>
    if c = tick then
      let body := t.takeWhile (fun d => d ≠ tick ∧ d ≠ '\n')
      let rest := t.dropWhile (fun d => d ≠ tick ∧ d ≠ '\n')
      match rest with
      | d :: t2 => if d = tick then some (tick :: body ++ [tick], t2) else none
      | [] => none
    else none
  | [] => none

/-- Scan for the earliest `_CODE_SPANS` match in `l` (the regex engine tries
each position left to right); returns text before the match, the match, and
the remainder. -/
def findCode : Str → Option (Str × Str × Str)
  | [] => none
  | c :: t =>
    match matchCodeAt (c :: t) with
    | some (m, rest) => some ([], m, rest)
    | none =>
      match findCode t with
      | some (pre, m, rest) => some (c :: pre, m, rest)
      | none => none

/-- Fuelled iteration of `_CODE_SPANS.finditer` as used by `_reflow`: the
text before each match is prose, the match is code, and the trailing
remainder is prose. -/
def splitSpansF : Nat → Str → List Seg
  | 0, l => [Seg.prose l]
  | fuel + 1, l =>
    match findCode l with
    | none => [Seg.prose l]
    | some (pre, m, rest) => Seg.prose pre :: Seg.code m :: splitSpansF fuel rest

/-- Split a raw string into alternating prose/code segments. -/
def splitSpans (l : Str) : List Seg := splitSpansF l.length l

/-- Apply the reflow to a prose segment, pass code through. -/
def applySeg : Seg → Str
  | Seg.prose s => reflow_segment s
  | Seg.code s => s

/-- The underlying string of a segment. -/
def segStr : Seg → Str
  | Seg.prose s => s
  | Seg.code s => s

/-- Embedding of `_reflow`: reflow outside code, leave code spans untouched,
then strip the joined result. -/
def reflow (raw : Str) : Str :=
  pyStrip (((splitSpans raw).map applySeg).flatten)

/-! DOM model and the extractor `_text_from_dom`. -/

/-- A parsed DOM node: a text node (`NavigableString`) or an element with a
name, attributes and children.  Comments are ignored by the extractor and by
`get_text`, so they are not modelled.  Attribute values are the raw strings of
the markup; multi-valued attributes (`class`, `rel`) are split on whitespace
where the source does so. -/
inductive Node where
  | text (s : Str)
  | elem (name : Str) (attrs : List (Str × Str)) (children : List Node)

/-- The `BLOCK_LIKE` set of block-level element names. -/
def BLOCK_LIKE : List Str :=
  ["p", "div", "section", "article", "header", "footer", "h1", "h2", "h3",
   "h4", "h5", "h6", "ul", "ol", "li", "table", "thead", "tbody", "tfoot",
   "tr", "td", "th", "blockquote", "pre", "figure", "figcaption", "hr"
  ].map String.data

/-- Attribute lookup, `node.get(name)`. -/
def getAttr (attrs : List (Str × Str)) (name : Str) : Option Str :=
  (attrs.find? (fun p => p.1 = name)).map Prod.snd

mutual

/-- The text-node strings of a subtree, in document order (what
`node.get_text()` joins). -/
def textStrings : Node → List Str
  | Node.text s => [s]
  | Node.elem _ _ cs => textStringsList cs

/-- The text-node strings of a forest, in document order. -/
def textStringsList : List Node → List Str
  | [] => []
  | c :: cs => textStrings c ++ textStringsList cs

end

/-- `node.get_text()`: concatenation of all text-node strings. -/
def getText (n : Node) : Str := (textStrings n).flatten

/-- `node.get_text(strip=True)`: each text-node string stripped, then
joined. -/
def getTextStrip (n : Node) : Str := ((textStrings n).map pyStrip).flatten

/-- The class list of an element, `node.get("class") or []`. -/
def classList (attrs : List (Str × Str)) : List Str :=
  match getAttr attrs "class".data with
  | some v => splitWs v
  | none => []

/-- A word character for the language-tag pattern `\w`, restricted to
ASCII.  Python's `\w` on `str` patterns also matches non-ASCII letters and
digits, which no finite table here enumerates; language tags such as
`language-中文` are therefore outside the modelled domain (this affects only
the fence label of `pre` blocks, never which text is extracted). -/
def isWordChar (c : Char) : Bool :=
  ('a' ≤ c ∧ c ≤ 'z') ∨ ('A' ≤ c ∧ c ≤ 'Z') ∨ ('0' ≤ c ∧ c ≤ '9') ∨ c = '_'

/-- `re.match(r"(?:language|lang)-(\w+)", cls)`: the `language` alternative is
tried first; on its failure the engine retries with `lang`.  Returns the
captured group. -/
def matchLangClass (cls : Str) : Option Str :=
  let tryAfter (rest : Str) : Option Str :=
    let w := rest.takeWhile isWordChar
    if w ≠ [] then some w else none
  if startsW "language-".data cls then
    match tryAfter (cls.drop 9) with
    | some w => some w
    | none =>
      if startsW "lang-".data cls then tryAfter (cls.drop 5) else none
  else if startsW "lang-".data cls then tryAfter (cls.drop 5)
  else none

/-- The language tag of a `pre` element: the first class with a
`language-`/`lang-` match. -/
def preLang : List Str → Option Str
  | [] => none
  | cls :: rest =>
    match matchLangClass cls with
    | some w => some w
    | none => preLang rest

/-- Does the last part of the accumulator end with a blank-line separator
(`parts[-1].endswith("\n\n")`)? -/
def endsNl2 (s : Str) : Bool := startsW ['\n', '\n'] (s.drop (s.length - 2))

mutual

/-- The `walk` closure of `_text_from_dom`, accumulating the `parts` list.
Text nodes are appended verbatim; `script`/`style` are skipped; `br` emits a
newline; block elements are separated by `"\n\n"` before and after unless the
last part already ends with one; `code` emits its full text in backticks;
`pre` emits a fenced block with an optional language tag; other elements
recurse into children. -/
def walk : Node → List Str → List Str
  | Node.text s, ps => ps ++ [s]
  | Node.elem nm attrs cs, ps =>
    if nm = "script".data ∨ nm = "style".data then ps
    else if nm = "br".data then ps ++ [['\n']]
    else
      let isB := nm ∈ BLOCK_LIKE
      let ps1 := if isB ∧ ps ≠ [] ∧ ¬endsNl2 (ps.getLastD []) then ps ++ [['\n', '\n']] else ps
      let ps2 :=
        if nm = "code".data then
          ps1 ++ [tick :: getText (Node.elem nm attrs cs) ++ [tick]]
        else if nm = "pre".data then
          let code := getText (Node.elem nm attrs cs)
          let fence :=
            match preLang (classList attrs) with
            | some lang => [tick, tick, tick] ++ lang ++ ['\n']
            | none => [tick, tick, tick] ++ ['\n']
          ps1 ++ [fence ++ code ++ '\n' :: [tick, tick, tick]]
        else walkList cs ps1
      if isB ∧ (ps2 = [] ∨ ¬endsNl2 (ps2.getLastD [])) then ps2 ++ [['\n', '\n']] else ps2

/-- Walk a forest of children in document order. -/
def walkList : List Node → List Str → List Str
  | [], ps => ps
  | c :: cs, ps => walkList cs (walk c ps)

end

/-- Embedding of `_text_from_dom`: join the parts, collapse newline runs of
three or more to two, and strip. -/
def text_from_dom (root : Node) : Str :=
  pyStrip (collapseNl (walk root []).flatten)

/-- The parts contributed by walking `n` on top of the already-accumulated
parts `ps` (`walk` only ever appends to `parts`). -/
def walkDelta (n : Node) (ps : List Str) : List Str :=
  (walk n ps).drop ps.length

/-- One ancestor level of a node's position in the document: the enclosing
element's name and attributes, and the siblings before and after the node. -/
structure CtxFrame where
  name : Str
  attrs : List (Str × Str)
  before : List Node
  after : List Node

/-- Rebuild the document tree around a node from its ancestor chain, given
outermost frame first. -/
def plugCtx : List CtxFrame → Node → Node
  | [], n => n
  | f :: fs, n => Node.elem f.name f.attrs (f.before ++ plugCtx fs n :: f.after)

/-- An element name on none of `walk`'s special paths: not skipped
(`script`/`style`), not a line break (`br`) and not text-extracted without
recursion (`code`/`pre`) — `walk` descends into such an element's
children. -/
def ordinaryName (nm : Str) : Prop :=
  ¬(nm = "script".data ∨ nm = "style".data) ∧ nm ≠ "br".data ∧
    nm ≠ "code".data ∧ nm ≠ "pre".data

instance : DecidablePred ordinaryName := fun nm => by
  unfold ordinaryName
  infer_instance

/-- The pre-separator step of `walk` on entering an element: prepend a
blank-line part when the element is block-like, parts have accumulated and
the last part does not already end with a blank line. -/
def enterParts (nm : Str) (ps : List Str) : List Str :=
  if nm ∈ BLOCK_LIKE ∧ ps ≠ [] ∧ ¬endsNl2 (ps.getLastD []) = true then
    ps ++ [['\n', '\n']]
  else ps

/-- The parts accumulated by `walk` when it reaches the hole of an ancestor
context, starting from `ps` at the outermost frame: each frame applies its
pre-separator and walks its before-siblings. -/
def ctxPreAux : List CtxFrame → List Str → List Str
  | [], ps => ps
  | f :: fs, ps => ctxPreAux fs (walkList f.before (enterParts f.name ps))

/-- The parts accumulated at the hole when extraction starts at the context's
root. -/
def ctxPre (fs : List CtxFrame) : List Str := ctxPreAux fs []

/-! Content locator: `getCurrentNextPageURL` and its helpers. -/

mutual

/-- All element nodes of a tree, in document order (preorder), the root
included; this is the search space of `find_all`/`select`. -/
def elemsOf : Node → List Node
  | Node.text _ => []
  | Node.elem nm attrs cs => Node.elem nm attrs cs :: elemsList cs

/-- All element nodes of a forest, in document order. -/
def elemsList : List Node → List Node
  | [] => []
  | c :: cs => elemsOf c ++ elemsList cs

end

/-- The name of an element node (irrelevant default for text nodes). -/
def nodeName : Node → Str
  | Node.text _ => []
  | Node.elem nm _ _ => nm

/-- The attributes of a node. -/
def nodeAttrs : Node → List (Str × Str)
  | Node.text _ => []
  | Node.elem _ attrs _ => attrs

/-- `node.get("href")` when present and truthy (non-empty). -/
def truthyHref (n : Node) : Option Str :=
  match getAttr (nodeAttrs n) "href".data with
  | some h => if h ≠ [] then some h else none
  | none => none

/-- ASCII lowercasing, the identity on other characters, modelling
`str.lower()` on the character set exercised here. -/
def lowerChar (c : Char) : Char :=
  if 'A' ≤ c ∧ c ≤ 'Z' then Char.ofNat (c.toNat + 32) else c

/-- `(a.get_text(strip=True) or "").lower()`. -/
def anchorLabel (n : Node) : Str := (getTextStrip n).map lowerChar

/-- Does the anchor's label start with `"next"`? -/
def labelStartsNext (n : Node) : Bool := startsW "next".data (anchorLabel n)

/-- Model of `urllib.parse.urljoin`, restricted to the reference shapes
exercised in this development: an absolute reference is returned as is, a
root-relative reference replaces everything after the authority of the base,
and any other reference replaces the last segment of the base path. -/
def urljoin (base rel : Str) : Str :=
  if startsW "http://".data rel ∨ startsW "https://".data rel then rel
  else if startsW ['/'] rel then
    let afterScheme :=
      if startsW "http://".data base then 7
      else if startsW "https://".data base then 8
      else 0
    (base.take afterScheme) ++ ((base.drop afterScheme).takeWhile (· ≠ '/')) ++ rel
  else
    dropRightWhile (· ≠ '/') base ++ rel

/-- Branch 1 candidate: `select_one('link[rel="next"]')`, the first `link`
element whose `rel` attribute is exactly `next`. -/
def firstLinkRelNext (doc : Node) : Option Node :=
  (elemsOf doc).find? (fun n =>
    nodeName n = "link".data ∧ getAttr (nodeAttrs n) "rel".data = some "next".data)

/-- Branch 2 candidate: `select_one('a[rel~="next"]')`, the first anchor
whose `rel` attribute contains the word `next`. -/
def firstARelNext (doc : Node) : Option Node :=
  (elemsOf doc).find? (fun n =>
    decide (nodeName n = "a".data) &&
      match getAttr (nodeAttrs n) "rel".data with
      | some v => decide ("next".data ∈ splitWs v)
      | none => false)

/-- All anchors of the document, in document order (`find_all("a")`). -/
def allAnchors (doc : Node) : List Node :=
  (elemsOf doc).filter (fun n => nodeName n = "a".data)

/-- Branch 3: the first anchor, in document order, whose label starts with
`next` and whose `href` is truthy (anchors failing either test are skipped,
not fatal). -/
def firstTextNext (doc : Node) : Option Node :=
  (allAnchors doc).find? (fun n =>
    labelStartsNext n ∧ (truthyHref n).isSome)

/-- Is the element a navigation container for the selector
`.nav-links a, nav a`: class list containing `nav-links`, or a `nav`
element? -/
def isNavContainer (n : Node) : Bool :=
  nodeName n = "nav".data ∨ "nav-links".data ∈ classList (nodeAttrs n)

mutual

/-- The anchors matching `.nav-links a, nav a` in document order: anchors
with a proper ancestor that is a navigation container. -/
def navAnchors : Node → Bool → List Node
  | Node.text _, _ => []
  | Node.elem nm attrs cs, inNav =>
    let self := if inNav ∧ nm = "a".data then [Node.elem nm attrs cs] else []
    self ++ navAnchorsList cs (inNav ∨ isNavContainer (Node.elem nm attrs cs))

/-- The nav-anchors of a forest, in document order. -/
def navAnchorsList : List Node → Bool → List Node
  | [], _ => []
  | c :: cs, inNav => navAnchors c inNav ++ navAnchorsList cs inNav

end

/-- Branch 4 candidate: `select_one(".nav-links a, nav a")`. -/
def firstNavAnchor (doc : Node) : Option Node := (navAnchors doc false).head?

/-- Embedding of `getCurrentNextPageURL`: the four ordered fallback
strategies of the source, each resolved against the page URL. -/
def getCurrentNextPageURL (url : Str) (doc : Node) : Option Str :=
  match firstLinkRelNext doc with
  | some l =>
    match truthyHref l with
    | some h => some (urljoin url h)
    | none => afterLink url doc
  | none => afterLink url doc
where
  /-- Strategies 2–4. -/
  afterLink (url : Str) (doc : Node) : Option Str :=
    match firstARelNext doc with
    | some a =>
      match truthyHref a with
      | some h => some (urljoin url h)
      | none => afterRel url doc
    | none => afterRel url doc
  /-- Strategies 3–4. -/
  afterRel (url : Str) (doc : Node) : Option Str :=
    match firstTextNext doc with
    | some a =>
      match truthyHref a with
      | some h => some (urljoin url h)
      | none => navBranch url doc
    | none => navBranch url doc
  /-- Strategy 4, the `.nav-links a, nav a` fallback. -/
  navBranch (url : Str) (doc : Node) : Option Str :=
    match firstNavAnchor doc with
    | some a =>
      match truthyHref a with
      | some h => if labelStartsNext a then some (urljoin url h) else none
      | none => none
    | none => none

/-- The variant of `getCurrentNextPageURL` without the final
navigation-container fallback, for the redundancy claim: identical to the
source function except that the fourth strategy is replaced by `None`. -/
def getNextPageURLNoNav (url : Str) (doc : Node) : Option Str :=
  match firstLinkRelNext doc with
  | some l =>
    match truthyHref l with
    | some h => some (urljoin url h)
    | none => afterLink url doc
  | none => afterLink url doc
where
  /-- Strategies 2–3. -/
  afterLink (url : Str) (doc : Node) : Option Str :=
    match firstARelNext doc with
    | some a =>
      match truthyHref a with
      | some h => some (urljoin url h)
      | none => afterRel url doc
    | none => afterRel url doc
  /-- Strategy 3 with no further fallback. -/
  afterRel (url : Str) (doc : Node) : Option Str :=
    match firstTextNext doc with
    | some a =>
      match truthyHref a with
      | some h => some (urljoin url h)
      | none => none
    | none => none

/-! Pagination driver `proofRead`. -/

/-- How a run of the pagination loop ends: at the depth-limit terminal
(`reportFinish(True)`), at the end-of-book terminal (`reportFinish(False)`),
or with the step budget exhausted (the loop itself has no such case; the
budget only makes the embedding total).  Each terminal carries the list of
pages processed and emitted before it, in order. -/
inductive Outcome where
  | depthLimit (emitted : List Str)
  | endOfBook (emitted : List Str)
  | outOfFuel
deriving DecidableEq, Repr

/-- One execution of the `while pageURL:` loop of `proofRead`, starting at
`url` with `emitted` pages already processed.  `next` models
`getNextPageURL` (`none` is Python's falsy result); `maxdepth` models
`mArgs.maxdepth`, with `none` for an absent bound (and `pageCount == None`
never true).  The depth test `pageCount == mArgs.maxdepth` runs before the
page is processed. -/
def proofReadLoop (next : Str → Option Str) (maxdepth : Option Nat) :
    Nat → Str → List Str → Outcome
  | 0, _, _ => Outcome.outOfFuel
  | fuel + 1, url, emitted =>
    if maxdepth = some emitted.length then Outcome.depthLimit emitted
    else
      match next url with
      | none => Outcome.endOfBook (emitted ++ [url])
      | some u => proofReadLoop next maxdepth fuel u (emitted ++ [url])

/-- The pagination driver from its entry: page count starts at zero. -/
def proofRead (next : Str → Option Str) (maxdepth : Option Nat) (fuel : Nat)
    (url : Str) : Outcome :=
  proofReadLoop next maxdepth fuel url []

/-! Auxiliary definitions used by the claims. -/

/-- The character-side conditions for plain word characters in the amended
punctuation-hugging statement: NFKC-inert (so the real program's NFKC pass
fixes the word), not whitespace, not an invisible, and not the sentinel's
opening bracket. -/
def PlainChar (c : Char) : Prop :=
  nfkcInert c = true ∧ isSpace c = false ∧ isInvisible c = false ∧ c ≠ '⟦'

instance : DecidablePred PlainChar := fun c => by
  unfold PlainChar
  infer_instance

/-- A finite pressbook chain: following `next` from `u` visits exactly the
pages of `l` and then finds no further page. -/
inductive Chain (next : Str → Option Str) : Str → List Str → Prop where
  | last {u : Str} : next u = none → Chain next u [u]
  | step {u v : Str} {l : List Str} :
      next u = some v → Chain next v l → Chain next u (u :: l)

/-- A concrete five-page chain `p1 → p2 → p3 → p4 → p5` for the pagination
scenarios. -/
def chain5 : Str → Option Str := fun u =>
  if u = "p1".data then some "p2".data
  else if u = "p2".data then some "p3".data
  else if u = "p3".data then some "p4".data
  else if u = "p4".data then some "p5".data
  else none

/-- A document whose only pagination markup is
`<a href="/p2">Next Chapter</a>`: no `link` element, no `rel` attribute on
any anchor. -/
def nextChapterDoc : Node :=
  Node.elem "html".data []
    [Node.elem "body".data []
      [Node.elem "p".data [] [Node.text "some content".data],
       Node.elem "a".data [("href".data, "/p2".data)]
         [Node.text "Next Chapter".data]]]

/-! Generic lemmas about the string utilities. -/

theorem startsW_iff {p l : Str} : startsW p l = true ↔ ∃ r, l = p ++ r := by
  induction p generalizing l with
  | nil => simp [startsW]
  | cons a p ih =>
    cases l with
    | nil => simp [startsW]
    | cons c t =>
      simp only [startsW, Bool.and_eq_true, decide_eq_true_eq, List.cons_append, ih]
      constructor
      · rintro ⟨rfl, r, rfl⟩
        exact ⟨r, rfl⟩
      · rintro ⟨r, h⟩
        injection h with h1 h2
        exact ⟨h1.symm, r, h2⟩

theorem hasSubstr_iff {p l : Str} : hasSubstr p l = true ↔ ∃ a b, l = a ++ p ++ b := by
  induction l with
  | nil =>
    simp only [hasSubstr, startsW_iff]
    constructor
    · rintro ⟨r, h⟩
      rcases List.append_eq_nil.mp h.symm with ⟨rfl, rfl⟩
      exact ⟨[], [], rfl⟩
    · rintro ⟨a, b, h⟩
      rw [List.append_assoc] at h
      rcases List.append_eq_nil.mp h.symm with ⟨rfl, h2⟩
      rcases List.append_eq_nil.mp h2 with ⟨rfl, rfl⟩
      exact ⟨[], rfl⟩
  | cons c t ih =>
    simp only [hasSubstr, Bool.or_eq_true, startsW_iff, ih]
    constructor
    · rintro (⟨r, h⟩ | ⟨a, b, h⟩)
      · exact ⟨[], r, by simpa using h⟩
      · exact ⟨c :: a, b, by simp [h]⟩
    · rintro ⟨a, b, h⟩
      cases a with
      | nil => exact Or.inl ⟨b, by simpa using h⟩
      | cons x a2 =>
        right
        refine ⟨a2, b, ?_⟩
        have := List.tail_eq_of_cons_eq (by simpa using h)
        simpa using this

theorem hasSubstr_append_left {p a l : Str} (h : hasSubstr p l = true) :
    hasSubstr p (a ++ l) = true := by
  rw [hasSubstr_iff] at h ⊢
  obtain ⟨x, y, rfl⟩ := h
  exact ⟨a ++ x, y, by simp⟩

theorem hasSubstr_append_right {p b l : Str} (h : hasSubstr p l = true) :
    hasSubstr p (l ++ b) = true := by
  rw [hasSubstr_iff] at h ⊢
  obtain ⟨x, y, rfl⟩ := h
  exact ⟨x, y ++ b, by simp⟩

theorem hasSubstr_of_startsW {p l : Str} (h : startsW p l = true) :
    hasSubstr p l = true := by
  rw [startsW_iff] at h
  obtain ⟨r, rfl⟩ := h
  rw [hasSubstr_iff]
  exact ⟨[], r, by simp⟩

/-- A substring occurrence in a concatenation lies in one part or straddles
the boundary with nonempty pieces on both sides. -/
theorem hasSubstr_append_cases {p A B : Str} (h : hasSubstr p (A ++ B) = true) :
    hasSubstr p A = true ∨ hasSubstr p B = true ∨
      ∃ p1 p2, p = p1 ++ p2 ∧ p1 ≠ [] ∧ p2 ≠ [] ∧
        (∃ a, A = a ++ p1) ∧ startsW p2 B = true := by
  induction A with
  | nil => exact Or.inr (Or.inl (by simpa using h))
  | cons c t ih =>
    rw [List.cons_append] at h
    simp only [hasSubstr, Bool.or_eq_true] at h
    rcases h with h | h
    · rw [startsW_iff] at h
      obtain ⟨r, hr⟩ := h
      have hr2 : p ++ r = (c :: t) ++ B := by rw [← hr]; simp
      rcases List.append_eq_append_iff.mp hr2 with ⟨u, hu1, _⟩ | ⟨u, hu1, hu2⟩
      · left
        rw [hasSubstr_iff]
        exact ⟨[], u, by simpa using hu1⟩
      · cases u with
        | nil =>
          left
          rw [hasSubstr_iff]
          exact ⟨[], [], by simpa using hu1.symm⟩
        | cons x y =>
          right; right
          refine ⟨c :: t, x :: y, by simpa using hu1, by simp, by simp, ⟨[], rfl⟩, ?_⟩
          rw [startsW_iff]
          exact ⟨r, hu2⟩
    · rcases ih h with h1 | h1 | ⟨p1, p2, h1, h2, h3, ⟨a, ha⟩, h5⟩
      · left
        have := hasSubstr_append_left (a := [c]) h1
        simpa using this
      · exact Or.inr (Or.inl h1)
      · exact Or.inr (Or.inr ⟨p1, p2, h1, h2, h3, ⟨c :: a, by simp [ha]⟩, h5⟩)

theorem dropRightWhile_spec (p : Char → Bool) (l : Str) :
    ∃ r, l = dropRightWhile p l ++ r ∧ ∀ c ∈ r, p c = true := by
  induction l with
  | nil => exact ⟨[], rfl, by simp⟩
  | cons c t ih =>
    obtain ⟨r, hr, hall⟩ := ih
    simp only [dropRightWhile]
    by_cases h : dropRightWhile p t = [] ∧ p c = true
    · simp only [h.1, h.2, and_self, if_true]
      refine ⟨c :: r, ?_, ?_⟩
      · rw [h.1] at hr
        simpa using hr
      · intro x hx
        rcases List.mem_cons.mp hx with rfl | hx
        · exact h.2
        · exact hall x hx
    · rw [if_neg (by simpa using h)]
      exact ⟨r, by simpa using hr, hall⟩

/-- The kept part of `dropRightWhile` is empty or ends in a character
failing `p`. -/
theorem dropRightWhile_last (p : Char → Bool) (l : Str) :
    dropRightWhile p l = [] ∨
      ∃ A c, dropRightWhile p l = A ++ [c] ∧ p c = false := by
  induction l with
  | nil => exact Or.inl rfl
  | cons c t ih =>
    simp only [dropRightWhile]
    by_cases h : dropRightWhile p t = [] ∧ p c = true
    · rw [if_pos (by simp [h.1, h.2])]
      exact Or.inl rfl
    · rw [if_neg (by simpa using h)]
      right
      rcases ih with h0 | ⟨A, d, hA, hd⟩
      · rw [h0]
        rw [h0] at h
        simp only [true_and] at h
        exact ⟨[], c, rfl, by simpa using h⟩
      · exact ⟨c :: A, d, by rw [hA]; rfl, hd⟩

/-- Splitting `dropRightWhile` over an append. -/
theorem dropRightWhile_append (p : Char → Bool) (A B : Str) :
    dropRightWhile p (A ++ B) =
      if dropRightWhile p B = [] then dropRightWhile p A
      else A ++ dropRightWhile p B := by
  induction A with
  | nil =>
    by_cases hB : dropRightWhile p B = [] <;> simp [hB, dropRightWhile]
  | cons a t ih =>
    by_cases hB : dropRightWhile p B = []
    · simp only [hB, if_true] at ih ⊢
      show (if dropRightWhile p (t ++ B) = [] ∧ p a = true then []
            else a :: dropRightWhile p (t ++ B)) = _
      rw [ih]
      rfl
    · simp only [hB, if_false] at ih ⊢
      show (if dropRightWhile p (t ++ B) = [] ∧ p a = true then []
            else a :: dropRightWhile p (t ++ B)) = _
      rw [ih]
      have hne : ¬(t ++ dropRightWhile p B = [] ∧ p a = true) := by
        intro hcon
        exact hB (List.append_eq_nil.mp hcon.1).2
      rw [if_neg hne]
      rfl

/-- If the last character fails `p`, `dropRightWhile` keeps everything. -/
theorem dropRightWhile_eq_self (p : Char → Bool) (A : Str) (c : Char)
    (hc : p c = false) : dropRightWhile p (A ++ [c]) = A ++ [c] := by
  rw [dropRightWhile_append]
  have h1 : dropRightWhile p [c] = [c] := by
    simp [dropRightWhile, hc]
  rw [h1]
  simp

/-! Behaviour of the individual reflow passes on restricted characters. -/

theorem hasMojibakeSigns_eq_false {l : Str}
    (h : ∀ c ∈ l, c ≠ 'Ã' ∧ c ≠ 'Â' ∧ c ≠ 'â') :
    hasMojibakeSigns l = false := by
  induction l with
  | nil => rfl
  | cons c1 t ih =>
    cases t with
    | nil => rfl
    | cons c2 t2 =>
      have h1 := h c1 (by simp)
      rw [hasMojibakeSigns, if_neg (by simp [h1.1, h1.2.1]),
        if_neg (by simp [h1.2.2])]
      exact ih (fun c hc => h c (List.mem_cons_of_mem _ hc))

theorem nfkc_no_nbsp {l : Str} : ∀ c ∈ nfkc l, c.toNat ≠ 0xA0 := by
  intro c hc
  simp only [nfkc, List.mem_flatMap] at hc
  obtain ⟨a, _, hc⟩ := hc
  by_cases ha : a.toNat = 0xA0
  · simp only [nfkcChar, ha, if_true, List.mem_singleton] at hc
    subst hc
    decide
  · simp only [nfkcChar, ha, if_false, List.mem_singleton] at hc
    subst hc
    exact ha

theorem nfkc_eq_self {l : Str} (h : ∀ c ∈ l, c.toNat ≠ 0xA0) : nfkc l = l := by
  induction l with
  | nil => rfl
  | cons c t ih =>
    simp only [nfkc, List.flatMap_cons] at ih ⊢
    rw [ih (fun x hx => h x (List.mem_cons_of_mem _ hx))]
    simp [nfkcChar, h c (by simp)]

theorem nfkc_mem {l : Str} : ∀ c ∈ nfkc l, c ∈ l ∨ c = ' ' := by
  intro c hc
  simp only [nfkc, List.mem_flatMap] at hc
  obtain ⟨a, ha, hc⟩ := hc
  by_cases h : a.toNat = 0xA0
  · simp only [nfkcChar, h, if_true, List.mem_singleton] at hc
    exact Or.inr hc
  · simp only [nfkcChar, h, if_false, List.mem_singleton] at hc
    exact Or.inl (hc ▸ ha)

theorem replaceNbsp_eq_self {l : Str} (h : ∀ c ∈ l, c.toNat ≠ 0xA0) :
    replaceNbsp l = l := by
  simp only [replaceNbsp]
  conv_rhs => rw [← List.map_id l]
  exact List.map_congr_left (fun c hc => by simp [h c hc])

theorem replaceCrlf_eq_self {l : Str} (h : '\r' ∉ l) : replaceCrlf l = l := by
  induction l with
  | nil => rfl
  | cons a t ih =>
    cases t with
    | nil => rfl
    | cons b t2 =>
      have ha : a ≠ '\r' := fun hc => h (hc ▸ List.mem_cons_self _ _)
      simp only [replaceCrlf]
      rw [if_neg (by simp [ha]), ih (fun hc => h (List.mem_cons_of_mem _ hc))]

theorem normNewlines_eq_self {l : Str} (h : '\r' ∉ l) : normNewlines l = l := by
  simp only [normNewlines, replaceCrlf_eq_self h]
  conv_rhs => rw [← List.map_id l]
  exact List.map_congr_left (fun c hc => by
    have hne : c ≠ '\r' := fun hc2 => h (hc2 ▸ hc)
    rw [if_neg hne]
    rfl)

theorem stripInvisibles_eq_self {l : Str}
    (h : ∀ c ∈ l, isInvisible c = false) : stripInvisibles l = l := by
  simp only [stripInvisibles]
  exact List.filter_eq_self.mpr (fun c hc => by simp [h c hc])

theorem stripInvisibles_mem {l : Str} : ∀ c ∈ stripInvisibles l, c ∈ l :=
  fun _ hc => List.mem_of_mem_filter hc

theorem trimWsBeforeNl_mem {l : Str} : ∀ c ∈ trimWsBeforeNl l, c ∈ l := by
  induction l with
  | nil => simp [trimWsBeforeNl]
  | cons a t ih =>
    intro c hc
    simp only [trimWsBeforeNl] at hc
    by_cases hcond : isHt a = true ∧ (trimWsBeforeNl t).headI = '\n' ∧
        trimWsBeforeNl t ≠ []
    · rw [if_pos (by simp [hcond.1, hcond.2.1, hcond.2.2])] at hc
      exact List.mem_cons_of_mem _ (ih c hc)
    · rw [if_neg (by simpa using hcond)] at hc
      rcases List.mem_cons.mp hc with rfl | hc
      · exact List.mem_cons_self _ _
      · exact List.mem_cons_of_mem _ (ih c hc)

theorem trimWsBeforeNl_eq_self {l : Str} (h : '\n' ∉ l) :
    trimWsBeforeNl l = l := by
  induction l with
  | nil => rfl
  | cons a t ih =>
    have ht : trimWsBeforeNl t = t := ih (fun hc => h (List.mem_cons_of_mem _ hc))
    simp only [trimWsBeforeNl, ht]
    have : ¬(isHt a = true ∧ t.headI = '\n' ∧ t ≠ []) := by
      rintro ⟨_, h2, h3⟩
      apply h
      apply List.mem_cons_of_mem
      cases t with
      | nil => exact absurd rfl h3
      | cons x xs => exact h2 ▸ List.mem_cons_self _ _
    rw [if_neg (by simpa using this)]

theorem collapseNlGo_mem {l : Str} : ∀ {k}, ∀ c ∈ collapseNlGo l k, c ∈ l := by
  induction l with
  | nil => simp [collapseNlGo]
  | cons a t ih =>
    intro k c hc
    simp only [collapseNlGo] at hc
    by_cases ha : a = '\n'
    · rw [if_pos (by simp [ha])] at hc
      by_cases hk : 2 ≤ k
      · rw [if_pos hk] at hc
        exact List.mem_cons_of_mem _ (ih c hc)
      · rw [if_neg hk] at hc
        rcases List.mem_cons.mp hc with rfl | hc
        · exact ha ▸ List.mem_cons_self _ _
        · exact List.mem_cons_of_mem _ (ih c hc)
    · rw [if_neg (by simp [ha])] at hc
      rcases List.mem_cons.mp hc with rfl | hc
      · exact List.mem_cons_self _ _
      · exact List.mem_cons_of_mem _ (ih c hc)

theorem collapseNlGo_eq_self {l : Str} (h : '\n' ∉ l) :
    ∀ k, collapseNlGo l k = l := by
  induction l with
  | nil => intro k; rfl
  | cons a t ih =>
    intro k
    have ha : a ≠ '\n' := fun hc => h (hc ▸ List.mem_cons_self _ _)
    simp only [collapseNlGo]
    rw [if_neg (by simp [ha])]
    rw [ih (fun hc => h (List.mem_cons_of_mem _ hc)) 0]

theorem hugPunctF_eq_self : ∀ fuel {l : Str}, hasSubstr WRAP l = false →
    hugPunctF fuel l = l := by
  intro fuel
  induction fuel with
  | zero => intro l _; rfl
  | succ fuel ih =>
    intro l h
    cases l with
    | nil => rfl
    | cons c t =>
      simp only [hasSubstr, Bool.or_eq_false_iff] at h
      simp only [hugPunctF]
      rw [if_neg (by simp [h.1]), ih h.2]

theorem hugSemiF_eq_self : ∀ fuel {l : Str}, hasSubstr WRAP l = false →
    hugSemiF fuel l = l := by
  intro fuel
  induction fuel with
  | zero => intro l _; rfl
  | succ fuel ih =>
    intro l h
    cases l with
    | nil => rfl
    | cons c t =>
      simp only [hasSubstr, Bool.or_eq_false_iff] at h
      have ht : hasSubstr WRAP t = false := h.2
      have hW : ¬(c = ';' ∧ startsW WRAP t = true) := by
        rintro ⟨_, hst⟩
        rw [hasSubstr_of_startsW hst] at ht
        cases ht
      simp only [hugSemiF]
      rw [if_neg (by simpa using hW), ih h.2]

theorem wrapToSpaceF_eq_self : ∀ fuel {l : Str}, hasSubstr WRAP l = false →
    wrapToSpaceF fuel l = l := by
  intro fuel
  induction fuel with
  | zero => intro l _; rfl
  | succ fuel ih =>
    intro l h
    have hdw : startsW WRAP (l.dropWhile isSpace) = false := by
      by_contra hc
      have hc2 : startsW WRAP (l.dropWhile isSpace) = true := by
        simpa using hc
      have : hasSubstr WRAP l = true := by
        have hsub := hasSubstr_of_startsW hc2
        calc hasSubstr WRAP l
            = hasSubstr WRAP (l.takeWhile isSpace ++ l.dropWhile isSpace) := by
              rw [List.takeWhile_append_dropWhile]
          _ = true := hasSubstr_append_left hsub
      rw [this] at h
      cases h
    simp only [wrapToSpaceF]
    rw [if_neg (by simp [hdw])]
    cases l with
    | nil => rfl
    | cons c t =>
      simp only [hasSubstr, Bool.or_eq_false_iff] at h
      show c :: wrapToSpaceF fuel t = c :: t
      rw [ih h.2]

theorem trimWsAfterNlGo_mem : ∀ (l : Str) (b : Bool), ∀ c ∈ trimWsAfterNlGo l b, c ∈ l := by
  intro l
  induction l with
  | nil => simp [trimWsAfterNlGo]
  | cons a t ih =>
    intro b c hc
    simp only [trimWsAfterNlGo] at hc
    by_cases hcond : isHt a = true ∧ b = true
    · rw [if_pos (by simp [hcond.1, hcond.2])] at hc
      exact List.mem_cons_of_mem _ (ih b c hc)
    · rw [if_neg (by simpa using hcond)] at hc
      rcases List.mem_cons.mp hc with rfl | hc
      · exact List.mem_cons_self _ _
      · exact List.mem_cons_of_mem _ (ih _ c hc)

theorem trimWsAfterNlGo_eq_self {l : Str} (h : '\n' ∉ l) :
    trimWsAfterNlGo l false = l := by
  induction l with
  | nil => rfl
  | cons a t ih =>
    have ha : a ≠ '\n' := fun hc => h (hc ▸ List.mem_cons_self _ _)
    simp only [trimWsAfterNlGo]
    rw [if_neg (by simp)]
    have : (decide (a = '\n')) = false := by simp [ha]
    rw [this, ih (fun hc => h (List.mem_cons_of_mem _ hc))]

theorem markWraps_eq_self {l : Str} (h : '\n' ∉ l) : markWraps l = l := by
  induction l with
  | nil => rfl
  | cons a t ih =>
    cases t with
    | nil => rfl
    | cons b t2 =>
      cases t2 with
      | nil => rfl
      | cons c3 t3 =>
        have hb : b ≠ '\n' := fun hc => h (by simp [hc])
        simp only [markWraps]
        rw [if_neg (by simp [hb]), ih (fun hc => h (List.mem_cons_of_mem _ hc))]

theorem hugPunctF_mem : ∀ fuel (l : Str), ∀ c ∈ hugPunctF fuel l, c ∈ l := by
  intro fuel
  induction fuel with
  | zero => intro l c hc; exact hc
  | succ fuel ih =>
    intro l c hc
    cases l with
    | nil => exact hc
    | cons a t =>
      simp only [hugPunctF] at hc
      by_cases hm : startsW WRAP (a :: t) = true
      · rw [if_pos hm] at hc
        have hsub2 : List.Sublist (((a :: t).drop 6).dropWhile isSpace) (a :: t) :=
          (List.dropWhile_sublist _).trans (List.drop_sublist _ _)
        cases hr : ((a :: t).drop 6).dropWhile isSpace with
        | nil =>
          rw [hr] at hc
          rcases List.mem_cons.mp hc with rfl | hc
          · exact List.mem_cons_self _ _
          · exact List.mem_cons_of_mem _ (ih t c hc)
        | cons p t2 =>
          rw [hr] at hc
          have hc2 : c ∈ (if ((a :: t).drop 6).takeWhile isSpace ≠ [] ∧ isPunct p = true
              then p :: hugPunctF fuel t2 else a :: hugPunctF fuel t) := hc
          by_cases hcond : ((a :: t).drop 6).takeWhile isSpace ≠ [] ∧ isPunct p = true
          · rw [if_pos hcond] at hc2
            rcases List.mem_cons.mp hc2 with rfl | hc2
            · exact (hr ▸ hsub2).mem (List.mem_cons_self _ _)
            · exact (hr ▸ hsub2).mem (List.mem_cons_of_mem _ (ih t2 c hc2))
          · rw [if_neg hcond] at hc2
            rcases List.mem_cons.mp hc2 with rfl | hc2
            · exact List.mem_cons_self _ _
            · exact List.mem_cons_of_mem _ (ih t c hc2)
      · rw [if_neg (by simpa using hm)] at hc
        rcases List.mem_cons.mp hc with rfl | hc
        · exact List.mem_cons_self _ _
        · exact List.mem_cons_of_mem _ (ih t c hc)

theorem hugSemiF_mem : ∀ fuel (l : Str), ∀ c ∈ hugSemiF fuel l,
    c ∈ l ∨ c = ';' ∨ c = '.' := by
  intro fuel
  induction fuel with
  | zero => intro l c hc; exact Or.inl hc
  | succ fuel ih =>
    intro l c hc
    cases l with
    | nil => exact Or.inl hc
    | cons a t =>
      simp only [hugSemiF] at hc
      by_cases hm : a = ';' ∧ startsW WRAP t = true
      · rw [if_pos (by simp [hm.1, hm.2])] at hc
        have hsub2 : List.Sublist ((t.drop 6).dropWhile isSpace) (a :: t) :=
          ((List.dropWhile_sublist _).trans (List.drop_sublist _ _)).trans
            (List.sublist_cons_self _ _)
        cases hr : (t.drop 6).dropWhile isSpace with
        | nil =>
          rw [hr] at hc
          rcases List.mem_cons.mp hc with rfl | hc
          · exact Or.inl (List.mem_cons_self _ _)
          · rcases ih t c hc with h | h
            · exact Or.inl (List.mem_cons_of_mem _ h)
            · exact Or.inr h
        | cons p t2 =>
          rw [hr] at hc
          have hc2 : c ∈ (if (t.drop 6).takeWhile isSpace ≠ [] ∧ p = '.'
              then ';' :: '.' :: hugSemiF fuel t2 else a :: hugSemiF fuel t) := hc
          by_cases hcond : (t.drop 6).takeWhile isSpace ≠ [] ∧ p = '.'
          · rw [if_pos hcond] at hc2
            rcases List.mem_cons.mp hc2 with rfl | hc2
            · exact Or.inr (Or.inl rfl)
            · rcases List.mem_cons.mp hc2 with rfl | hc2
              · exact Or.inr (Or.inr rfl)
              · rcases ih t2 c hc2 with h | h
                · exact Or.inl ((hr ▸ hsub2).mem (List.mem_cons_of_mem _ h))
                · exact Or.inr h
          · rw [if_neg hcond] at hc2
            rcases List.mem_cons.mp hc2 with rfl | hc2
            · exact Or.inl (List.mem_cons_self _ _)
            · rcases ih t c hc2 with h | h
              · exact Or.inl (List.mem_cons_of_mem _ h)
              · exact Or.inr h
      · rw [if_neg (by simpa using hm)] at hc
        rcases List.mem_cons.mp hc with rfl | hc
        · exact Or.inl (List.mem_cons_self _ _)
        · rcases ih t c hc with h | h
          · exact Or.inl (List.mem_cons_of_mem _ h)
          · exact Or.inr h

theorem wrapToSpaceF_mem : ∀ fuel (l : Str), ∀ c ∈ wrapToSpaceF fuel l,
    c ∈ l ∨ c = ' ' := by
  intro fuel
  induction fuel with
  | zero => intro l c hc; exact Or.inl hc
  | succ fuel ih =>
    intro l c hc
    simp only [wrapToSpaceF] at hc
    by_cases hm : startsW WRAP (l.dropWhile isSpace) = true
    · rw [if_pos hm] at hc
      rcases List.mem_cons.mp hc with rfl | hc
      · exact Or.inr rfl
      · rcases ih _ c hc with h | h
        · left
          have hsub : List.Sublist (((l.dropWhile isSpace).drop 6).dropWhile isSpace) l :=
            ((List.dropWhile_sublist _).trans (List.drop_sublist _ _)).trans
              (List.dropWhile_sublist _)
          exact hsub.mem h
        · exact Or.inr h
    · rw [if_neg (by simpa using hm)] at hc
      cases l with
      | nil => exact Or.inl hc
      | cons a t =>
        rcases List.mem_cons.mp hc with rfl | hc
        · exact Or.inl (List.mem_cons_self _ _)
        · rcases ih t c hc with h | h
          · exact Or.inl (List.mem_cons_of_mem _ h)
          · exact Or.inr h

/-- Prefix transfer through the catch-all pass: a prefix made of
non-whitespace characters other than the sentinel opener must already have
been a prefix of the input. -/
theorem startsW_wrapToSpaceF : ∀ fuel {s t : Str},
    (∀ c ∈ s, isSpace c = false ∧ c ≠ '⟦') →
    startsW s (wrapToSpaceF fuel t) = true → startsW s t = true := by
  intro fuel
  induction fuel with
  | zero => intro s t _ h; exact h
  | succ fuel ih =>
    intro s t hs h
    simp only [wrapToSpaceF] at h
    by_cases hm : startsW WRAP (t.dropWhile isSpace) = true
    · rw [if_pos hm] at h
      cases s with
      | nil => rfl
      | cons c s2 =>
        exfalso
        simp only [startsW, Bool.and_eq_true, decide_eq_true_eq] at h
        have hsp := (hs c (List.mem_cons_self _ _)).1
        rw [h.1] at hsp
        exact absurd hsp (by decide)
    · rw [if_neg (by simpa using hm)] at h
      cases t with
      | nil =>
        cases s with
        | nil => rfl
        | cons c s2 => cases h
      | cons a t2 =>
        cases s with
        | nil => rfl
        | cons c s2 =>
          simp only [startsW, Bool.and_eq_true, decide_eq_true_eq] at h ⊢
          exact ⟨h.1, ih (fun x hx => hs x (List.mem_cons_of_mem _ hx)) h.2⟩

/-- The catch-all pass removes every occurrence of the sentinel. -/
theorem wrapToSpaceF_noSent : ∀ fuel (t : Str), t.length ≤ fuel →
    hasSubstr WRAP (wrapToSpaceF fuel t) = false := by
  intro fuel
  induction fuel with
  | zero =>
    intro t ht
    have : t = [] := List.length_eq_zero.mp (Nat.le_zero.mp ht)
    subst this
    rfl
  | succ fuel ih =>
    intro t ht
    simp only [wrapToSpaceF]
    by_cases hm : startsW WRAP (t.dropWhile isSpace) = true
    · rw [if_pos hm]
      obtain ⟨r, hr⟩ := startsW_iff.mp hm
      have hlen : (((t.dropWhile isSpace).drop 6).dropWhile isSpace).length ≤ fuel := by
        have h1 : ((((t.dropWhile isSpace).drop 6).dropWhile isSpace).length) ≤
            ((t.dropWhile isSpace).drop 6).length := (List.dropWhile_sublist _).length_le
        have h2 : ((t.dropWhile isSpace).drop 6).length =
            (t.dropWhile isSpace).length - 6 := List.length_drop _ _
        have h3 : (t.dropWhile isSpace).length = 6 + r.length := by
          rw [hr]
          simp [WRAP]
          omega
        have h4 : (t.dropWhile isSpace).length ≤ t.length :=
          (List.dropWhile_sublist _).length_le
        omega
      have hrec := ih _ hlen
      simp only [hasSubstr, Bool.or_eq_false_iff]
      refine ⟨?_, hrec⟩
      simp [startsW, WRAP]
    · rw [if_neg (by simpa using hm)]
      cases t with
      | nil => rfl
      | cons a t2 =>
        simp only [hasSubstr, Bool.or_eq_false_iff]
        have hrec := ih t2 (by simpa using Nat.le_of_succ_le_succ ht)
        refine ⟨?_, hrec⟩
        by_contra hcon
        have hcon2 : startsW WRAP (a :: wrapToSpaceF fuel t2) = true := by
          simpa using hcon
        simp only [WRAP, startsW, Bool.and_eq_true, decide_eq_true_eq] at hcon2
        obtain ⟨ha, htail⟩ := hcon2
        have htr : startsW ['W', 'R', 'A', 'P', '⟧'] t2 = true :=
          startsW_wrapToSpaceF fuel (by decide) htail
        have hfull : startsW WRAP (a :: t2) = true := by
          simp only [WRAP, startsW, Bool.and_eq_true, decide_eq_true_eq]
          exact ⟨ha, htr⟩
        have hdw : (a :: t2).dropWhile isSpace = a :: t2 := by
          rw [List.dropWhile_cons]
          rw [if_neg (by rw [← ha]; decide)]
        rw [hdw] at hm
        exact hm hfull

/-- Prefix transfer through trailing-whitespace deletion: a prefix made of
characters that are neither horizontal whitespace nor newline must have been
a prefix of the input. -/
theorem startsW_trimWsBeforeNl : ∀ {s t : Str},
    (∀ c ∈ s, isHt c = false ∧ c ≠ '\n') →
    startsW s (trimWsBeforeNl t) = true → startsW s t = true := by
  intro s t
  induction t generalizing s with
  | nil => intro _ h; exact h
  | cons a t2 ih =>
    intro hs h
    simp only [trimWsBeforeNl] at h
    by_cases hcond : isHt a = true ∧ (trimWsBeforeNl t2).headI = '\n' ∧
        trimWsBeforeNl t2 ≠ []
    · rw [if_pos (by simp [hcond.1, hcond.2.1, hcond.2.2])] at h
      cases s with
      | nil => rfl
      | cons c s2 =>
        exfalso
        obtain ⟨r, hr⟩ := startsW_iff.mp h
        have hhead : (trimWsBeforeNl t2).headI = c := by
          rw [hr]
          rfl
        have := (hs c (List.mem_cons_self _ _)).2
        rw [hcond.2.1] at hhead
        exact this hhead.symm
    · rw [if_neg (by simpa using hcond)] at h
      cases s with
      | nil => rfl
      | cons c s2 =>
        simp only [startsW, Bool.and_eq_true, decide_eq_true_eq] at h ⊢
        exact ⟨h.1, ih (fun x hx => hs x (List.mem_cons_of_mem _ hx)) h.2⟩

/-- Trailing-whitespace deletion cannot create a sentinel occurrence. -/
theorem trimWsBeforeNl_noSent : ∀ {t : Str}, hasSubstr WRAP t = false →
    hasSubstr WRAP (trimWsBeforeNl t) = false := by
  intro t
  induction t with
  | nil => intro h; exact h
  | cons a t2 ih =>
    intro h
    simp only [hasSubstr, Bool.or_eq_false_iff] at h
    simp only [trimWsBeforeNl]
    by_cases hcond : isHt a = true ∧ (trimWsBeforeNl t2).headI = '\n' ∧
        trimWsBeforeNl t2 ≠ []
    · rw [if_pos (by simp [hcond.1, hcond.2.1, hcond.2.2])]
      exact ih h.2
    · rw [if_neg (by simpa using hcond)]
      simp only [hasSubstr, Bool.or_eq_false_iff]
      refine ⟨?_, ih h.2⟩
      by_contra hcon
      have hcon2 : startsW WRAP (a :: trimWsBeforeNl t2) = true := by
        simpa using hcon
      simp only [WRAP, startsW, Bool.and_eq_true, decide_eq_true_eq] at hcon2
      obtain ⟨ha, htail⟩ := hcon2
      have htr : startsW ['W', 'R', 'A', 'P', '⟧'] t2 = true :=
        startsW_trimWsBeforeNl (by decide) htail
      have : startsW WRAP (a :: t2) = true := by
        simp only [WRAP, startsW, Bool.and_eq_true, decide_eq_true_eq]
        exact ⟨ha, htr⟩
      rw [this] at h
      exact absurd h.1 (by simp)

/-- Prefix transfer through leading-whitespace deletion, starting outside a
deletion run. -/
theorem startsW_trimWsAfterNlGo : ∀ {s t : Str},
    (∀ c ∈ s, isHt c = false ∧ c ≠ '\n') →
    startsW s (trimWsAfterNlGo t false) = true → startsW s t = true := by
  intro s t
  induction t generalizing s with
  | nil => intro _ h; exact h
  | cons a t2 ih =>
    intro hs h
    simp only [trimWsAfterNlGo] at h
    rw [if_neg (by simp)] at h
    cases s with
    | nil => rfl
    | cons c s2 =>
      simp only [startsW, Bool.and_eq_true, decide_eq_true_eq] at h ⊢
      refine ⟨h.1, ?_⟩
      have hc : c ≠ '\n' := (hs c (List.mem_cons_self _ _)).2
      have ha : (decide (a = '\n')) = false := by
        simp only [decide_eq_false_iff_not]
        rw [← h.1]
        exact hc
      rw [ha] at h
      exact ih (fun x hx => hs x (List.mem_cons_of_mem _ hx)) h.2

/-- Leading-whitespace deletion cannot create a sentinel occurrence. -/
theorem trimWsAfterNlGo_noSent : ∀ {t : Str} {b : Bool},
    hasSubstr WRAP t = false →
    hasSubstr WRAP (trimWsAfterNlGo t b) = false := by
  intro t
  induction t with
  | nil => intro b h; exact h
  | cons a t2 ih =>
    intro b h
    simp only [hasSubstr, Bool.or_eq_false_iff] at h
    simp only [trimWsAfterNlGo]
    by_cases hcond : isHt a = true ∧ b = true
    · rw [if_pos (by simp [hcond.1, hcond.2])]
      exact ih h.2
    · rw [if_neg (by simpa using hcond)]
      simp only [hasSubstr, Bool.or_eq_false_iff]
      refine ⟨?_, ih h.2⟩
      by_contra hcon
      have hcon2 : startsW WRAP (a :: trimWsAfterNlGo t2 (decide (a = '\n'))) = true := by
        simpa using hcon
      simp only [WRAP, startsW, Bool.and_eq_true, decide_eq_true_eq] at hcon2
      obtain ⟨ha, htail⟩ := hcon2
      have hflag : (decide (a = '\n')) = false := by
        simp only [decide_eq_false_iff_not]
        rw [← ha]
        decide
      rw [hflag] at htail
      have htr : startsW ['W', 'R', 'A', 'P', '⟧'] t2 = true :=
        startsW_trimWsAfterNlGo (by decide) htail
      have : startsW WRAP (a :: t2) = true := by
        simp only [WRAP, startsW, Bool.and_eq_true, decide_eq_true_eq]
        exact ⟨ha, htr⟩
      rw [this] at h
      exact absurd h.1 (by simp)

/-- The reflow pipeline never leaves a sentinel in its output, whatever the
input prose segment. -/
theorem reflow_segment_noSent (t : Str) :
    hasSubstr WRAP (reflow_segment t) = false := by
  unfold reflow_segment
  apply trimWsAfterNlGo_noSent
  apply trimWsBeforeNl_noSent
  exact wrapToSpaceF_noSent _ _ (Nat.le_refl _)

theorem stripInvisibles_no_inv {l : Str} :
    ∀ c ∈ stripInvisibles l, isInvisible c = false := by
  intro c hc
  have := List.of_mem_filter hc
  simpa using this

/-- A string clean of every trigger is a fixed point of the whole reflow
pipeline. -/
theorem reflow_segment_eq_of_clean {y : Str}
    (h1 : hasMojibakeSigns y = false)
    (h2 : ∀ c ∈ y, c.toNat ≠ 0xA0)
    (h3 : '\r' ∉ y)
    (h4 : ∀ c ∈ y, isInvisible c = false)
    (h5 : '\n' ∉ y)
    (h6 : hasSubstr WRAP y = false) :
    reflow_segment y = y := by
  have hmoj : maybe_fix_mojibake y = y := by
    simp [maybe_fix_mojibake, h1]
  have e0 : reflow_segment y = trimWsAfterNl (trimWsBeforeNl (wrapToSpace
      (hugSemi (hugPunct (markWraps (collapseNl (trimWsBeforeNl
      (stripInvisibles (normNewlines (replaceNbsp
      (nfkc (maybe_fix_mojibake y)))))))))))) := rfl
  rw [e0, hmoj, nfkc_eq_self h2, replaceNbsp_eq_self h2, normNewlines_eq_self h3,
    stripInvisibles_eq_self h4, trimWsBeforeNl_eq_self h5,
    show collapseNl y = y from collapseNlGo_eq_self h5 0,
    markWraps_eq_self h5,
    show hugPunct y = y from hugPunctF_eq_self _ h6,
    show hugSemi y = y from hugSemiF_eq_self _ h6,
    show wrapToSpace y = y from wrapToSpaceF_eq_self _ h6,
    trimWsBeforeNl_eq_self h5]
  exact trimWsAfterNlGo_eq_self h5

/-- On inputs without newlines, carriage returns or mojibake trigger
characters, the pipeline reduces to invisible stripping, NFKC and the
sentinel resolution passes, and its output is clean. -/
theorem reflow_segment_shape {x : Str}
    (hx : ∀ c ∈ x, c ≠ '\n' ∧ c ≠ '\r' ∧ c ≠ 'Ã' ∧ c ≠ 'Â' ∧ c ≠ 'â') :
    reflow_segment x =
      wrapToSpace (hugSemi (hugPunct (stripInvisibles (nfkc x)))) := by
  have hsig : hasMojibakeSigns x = false :=
    hasMojibakeSigns_eq_false (fun c hc =>
      ⟨(hx c hc).2.2.1, (hx c hc).2.2.2.1, (hx c hc).2.2.2.2⟩)
  have hmoj : maybe_fix_mojibake x = x := by
    simp [maybe_fix_mojibake, hsig]
  have ht1mem : ∀ c ∈ nfkc x, c ∈ x ∨ c = ' ' := nfkc_mem
  have ht1nb : ∀ c ∈ nfkc x, c.toNat ≠ 0xA0 := nfkc_no_nbsp
  have ht1cr : '\r' ∉ nfkc x := by
    intro hc
    rcases ht1mem _ hc with h | h
    · exact (hx _ h).2.1 rfl
    · cases h
  have ht4mem : ∀ c ∈ stripInvisibles (nfkc x), c ∈ x ∨ c = ' ' :=
    fun c hc => ht1mem c (stripInvisibles_mem c hc)
  have ht4nl : '\n' ∉ stripInvisibles (nfkc x) := by
    intro hc
    rcases ht4mem _ hc with h | h
    · exact (hx _ h).1 rfl
    · cases h
  have e0 : reflow_segment x = trimWsAfterNl (trimWsBeforeNl (wrapToSpace
      (hugSemi (hugPunct (markWraps (collapseNl (trimWsBeforeNl
      (stripInvisibles (normNewlines (replaceNbsp
      (nfkc (maybe_fix_mojibake x)))))))))))) := rfl
  rw [e0, hmoj, replaceNbsp_eq_self ht1nb, normNewlines_eq_self ht1cr,
    trimWsBeforeNl_eq_self ht4nl,
    show collapseNl (stripInvisibles (nfkc x)) = stripInvisibles (nfkc x) from
      collapseNlGo_eq_self ht4nl 0,
    markWraps_eq_self ht4nl]
  have hnl10 : '\n' ∉ wrapToSpace (hugSemi (hugPunct (stripInvisibles (nfkc x)))) := by
    intro hc
    rcases wrapToSpaceF_mem _ _ _ hc with h | h
    · rcases hugSemiF_mem _ _ _ h with h2 | h2 | h2
      · rcases ht4mem _ (hugPunctF_mem _ _ _ h2) with h3 | h3
        · exact (hx _ h3).1 rfl
        · cases h3
      · cases h2
      · cases h2
    · cases h
  rw [trimWsBeforeNl_eq_self hnl10]
  exact trimWsAfterNlGo_eq_self hnl10

/-- Any character of the reflowed output of a clean input is a character of
the input, a space, a semicolon or a period. -/
theorem reflow_segment_mem {x : Str}
    (hx : ∀ c ∈ x, c ≠ '\n' ∧ c ≠ '\r' ∧ c ≠ 'Ã' ∧ c ≠ 'Â' ∧ c ≠ 'â') :
    ∀ c ∈ reflow_segment x,
      (c ∈ stripInvisibles (nfkc x) ∨ c = ' ' ∨ c = ';' ∨ c = '.') := by
  intro c hc
  rw [reflow_segment_shape hx] at hc
  rcases wrapToSpaceF_mem _ _ _ hc with h | h
  · rcases hugSemiF_mem _ _ _ h with h2 | h2 | h2
    · exact Or.inl (hugPunctF_mem _ _ _ h2)
    · exact Or.inr (Or.inr (Or.inl h2))
    · exact Or.inr (Or.inr (Or.inr h2))
  · exact Or.inr (Or.inl h)

theorem isHt_eq_false {c : Char} (h : isSpace c = false) : isHt c = false := by
  by_contra hc
  have hc2 : isHt c = true := by simpa using hc
  simp only [isHt, decide_eq_true_eq] at hc2
  rcases hc2 with rfl | rfl <;> simp [isSpace] at h

theorem isSpace_nl : isSpace '\n' = true := by decide

theorem not_nl_of_not_space {c : Char} (h : isSpace c = false) : c ≠ '\n' := by
  rintro rfl
  simp [isSpace] at h

theorem not_cr_of_not_space {c : Char} (h : isSpace c = false) : c ≠ '\r' := by
  rintro rfl
  simp [isSpace] at h

theorem no_nbsp_of_not_space {c : Char} (h : isSpace c = false) :
    c.toNat ≠ 0xA0 := by
  intro hc
  simp [isSpace, hc] at h

theorem isPunct_props {p : Char} (hp : isPunct p = true) :
    isSpace p = false ∧ isInvisible p = false ∧ p ≠ 'Ã' ∧ p ≠ 'Â' ∧ p ≠ 'â' ∧
      p ≠ '⟦' ∧ p ≠ '\n' ∧ p ≠ '\r' ∧ p.toNat ≠ 0xA0 := by
  simp only [isPunct, decide_eq_true_eq] at hp
  rcases hp with rfl | rfl | rfl | rfl | rfl | rfl | rfl | rfl | rfl | rfl <;>
    exact (by decide)

theorem noSent_of_no_bracket {l : Str} (h : '⟦' ∉ l) :
    hasSubstr WRAP l = false := by
  by_contra hc
  have hc2 : hasSubstr WRAP l = true := by simpa using hc
  obtain ⟨a, b, rfl⟩ := hasSubstr_iff.mp hc2
  exact h (by simp [WRAP])

/-- An NFKC-inert character is none of the mojibake trigger characters. -/
theorem nfkcInert_props {c : Char} (h : nfkcInert c = true) :
    c ≠ 'Ã' ∧ c ≠ 'Â' ∧ c ≠ 'â' := by
  refine ⟨?_, ?_, ?_⟩ <;> rintro rfl <;> revert h <;> decide

/-- The component facts of `PlainChar`. -/
theorem PlainChar_elim {c : Char} (h : PlainChar c) :
    isSpace c = false ∧ isInvisible c = false ∧ c ≠ 'Ã' ∧ c ≠ 'Â' ∧ c ≠ 'â' ∧
      c ≠ '⟦' := by
  obtain ⟨h1, h2, h3, h4⟩ := h
  obtain ⟨hA, hB, hC⟩ := nfkcInert_props h1
  exact ⟨h2, h3, hA, hB, hC, h4⟩

/-- The component facts of `isAsciiBlank`. -/
theorem isAsciiBlank_props {c : Char} (h : isAsciiBlank c = true) :
    isSpace c = true ∧ c ≠ '\n' ∧ c ≠ '\r' ∧ c.toNat ≠ 0xA0 ∧
      isInvisible c = false ∧ c ≠ 'Ã' ∧ c ≠ 'Â' ∧ c ≠ 'â' ∧ c ≠ '⟦' := by
  simp only [isAsciiBlank, decide_eq_true_eq] at h
  obtain ⟨h1, h2, h3, h4⟩ := h
  refine ⟨h1, h3, h4, by omega, ?_, ?_, ?_, ?_, ?_⟩
  · by_contra hcon
    have hcon2 : isInvisible c = true := by simpa using hcon
    simp only [isInvisible, decide_eq_true_eq] at hcon2
    omega
  · rintro rfl
    exact absurd h2 (by decide)
  · rintro rfl
    exact absurd h2 (by decide)
  · rintro rfl
    exact absurd h2 (by decide)
  · rintro rfl
    exact absurd h2 (by decide)

/-- A run of characters satisfying `p` followed by one that does not: the
scan splits exactly there. -/
theorem takeWhile_run_concat {p : Char → Bool} {ws : Str} {x : Char}
    (hws : ∀ c ∈ ws, p c = true) (hx : p x = false) :
    (ws ++ [x]).takeWhile p = ws ∧ (ws ++ [x]).dropWhile p = [x] := by
  induction ws with
  | nil =>
    constructor
    · rw [List.nil_append, List.takeWhile_cons, if_neg (by simp [hx])]
    · rw [List.nil_append, List.dropWhile_cons, if_neg (by simp [hx])]
  | cons c t ih =>
    have hc := hws c (List.mem_cons_self _ _)
    obtain ⟨ih1, ih2⟩ := ih (fun d hd => hws d (List.mem_cons_of_mem _ hd))
    constructor
    · rw [List.cons_append, List.takeWhile_cons, if_pos (by simp [hc]), ih1]
    · rw [List.cons_append, List.dropWhile_cons, if_pos (by simp [hc]), ih2]

theorem trimWsBeforeNl_front {w rest : Str} (hw : ∀ c ∈ w, isHt c = false) :
    trimWsBeforeNl (w ++ rest) = w ++ trimWsBeforeNl rest := by
  induction w with
  | nil => rfl
  | cons c w2 ih =>
    have ihr := ih (fun x hx => hw x (List.mem_cons_of_mem _ hx))
    simp only [List.cons_append, trimWsBeforeNl, List.append_eq] at ihr ⊢
    rw [ihr, if_neg (by simp [hw c (List.mem_cons_self _ _)])]

theorem collapseNlGo_cons_nl {t : Str} {k : Nat} (hk : k < 2) :
    collapseNlGo ('\n' :: t) k = '\n' :: collapseNlGo t (k + 1) := by
  simp only [collapseNlGo]
  rw [if_pos (by trivial), if_neg (by omega)]

theorem collapseNlGo_cons_other {t : Str} {k : Nat} {c : Char} (hc : c ≠ '\n') :
    collapseNlGo (c :: t) k = c :: collapseNlGo t 0 := by
  simp only [collapseNlGo]
  rw [if_neg hc]

theorem collapseNl_single {w : Str} {d : Char} {rest : Str}
    (hw : '\n' ∉ w) (hd : d ≠ '\n') (hrest : '\n' ∉ rest) :
    collapseNl (w ++ '\n' :: d :: rest) = w ++ '\n' :: d :: rest := by
  unfold collapseNl
  induction w with
  | nil =>
    simp only [List.nil_append]
    rw [collapseNlGo_cons_nl (by omega), collapseNlGo_cons_other hd,
      collapseNlGo_eq_self hrest 0]
  | cons c w2 ih =>
    have hc : c ≠ '\n' := fun hcc => hw (hcc ▸ List.mem_cons_self _ _)
    simp only [List.cons_append]
    rw [collapseNlGo_cons_other hc, ih (fun hx => hw (List.mem_cons_of_mem _ hx))]

theorem markWraps_hit {a c : Char} {t : Str} (ha : a ≠ '\n') (hc : c ≠ '\n') :
    markWraps (a :: '\n' :: c :: t) = a :: (WRAP ++ c :: markWraps t) := by
  simp only [markWraps]
  rw [if_pos (by simp [ha, hc])]

theorem markWraps_step {a b : Char} {X : Str} (hb : b ≠ '\n') (hX : X ≠ []) :
    markWraps (a :: b :: X) = a :: markWraps (b :: X) := by
  cases X with
  | nil => exact absurd rfl hX
  | cons c t =>
    simp only [markWraps]
    rw [if_neg (by simp [hb])]

theorem markWraps_front {w : Str} {b : Char} {rest : Str}
    (hw : '\n' ∉ w) (hne : w ≠ []) (hb : b ≠ '\n') :
    markWraps (w ++ '\n' :: b :: rest) = w ++ WRAP ++ b :: markWraps rest := by
  induction w with
  | nil => exact absurd rfl hne
  | cons c w2 ih =>
    have hc : c ≠ '\n' := fun hcc => hw (hcc ▸ List.mem_cons_self _ _)
    cases w2 with
    | nil =>
      simp only [List.nil_append, List.cons_append]
      rw [markWraps_hit hc hb]
    | cons d w3 =>
      have hd : d ≠ '\n' := fun hdd => hw (hdd ▸ by simp)
      have ihr := ih (fun hx => hw (List.mem_cons_of_mem _ hx)) (by simp)
      simp only [List.cons_append] at ihr ⊢
      rw [markWraps_step hd (by simp), ihr]

theorem hugPunctF_eq_self_no_bracket (fuel : Nat) {l : Str}
    (hl : ∀ c ∈ l, c ≠ '⟦') : hugPunctF fuel l = l :=
  hugPunctF_eq_self fuel (noSent_of_no_bracket (fun hc => (hl '⟦' hc) rfl))

theorem hugSemiF_eq_self_no_bracket (fuel : Nat) {l : Str}
    (hl : ∀ c ∈ l, c ≠ '⟦') : hugSemiF fuel l = l :=
  hugSemiF_eq_self fuel (noSent_of_no_bracket (fun hc => (hl '⟦' hc) rfl))

theorem hugPunctF_nil : ∀ fuel, hugPunctF fuel [] = [] := by
  intro fuel
  cases fuel <;> rfl

theorem wrapToSpaceF_nil : ∀ fuel, wrapToSpaceF fuel [] = [] := by
  intro fuel
  cases fuel with
  | zero => rfl
  | succ f =>
    simp only [wrapToSpaceF, List.dropWhile_nil]
    rw [if_neg (by simp [startsW, WRAP])]

theorem startsW_WRAP_single {p : Char} : startsW WRAP [p] = false := by
  show (decide ('⟦' = p) && startsW ['W', 'R', 'A', 'P', '⟧'] []) = false
  rw [show startsW ['W', 'R', 'A', 'P', '⟧'] ([] : Str) = false from rfl]
  exact Bool.and_false _

theorem startsW_WRAP_cons_ne {c : Char} {t : Str} (hc : c ≠ '⟦') :
    startsW WRAP (c :: t) = false := by
  show (decide ('⟦' = c) && startsW ['W', 'R', 'A', 'P', '⟧'] t) = false
  rw [decide_eq_false (Ne.symm hc)]
  exact Bool.false_and _

theorem wrapToSpaceF_single {p : Char} (hp : isSpace p = false)
    (hbp : p ≠ '⟦') : ∀ fuel, wrapToSpaceF fuel [p] = [p] := by
  intro fuel
  cases fuel with
  | zero => rfl
  | succ f =>
    have h1 : List.dropWhile isSpace [p] = [p] := by
      rw [List.dropWhile_cons, if_neg (by simp [hp])]
    simp only [wrapToSpaceF, h1, startsW_WRAP_single]
    rw [if_neg (by simp)]
    show p :: wrapToSpaceF f [] = [p]
    rw [wrapToSpaceF_nil]

/-- Evaluation of the punctuation-hugging pass on a word, the sentinel, a
nonempty whitespace run and a closing punctuation character: the sentinel
and the whole run are deleted. -/
theorem hugPunctF_word_run : ∀ fuel (w ws : Str) (p : Char),
    (∀ c ∈ w, c ≠ '⟦') → ws ≠ [] → (∀ c ∈ ws, isSpace c = true ∧ c ≠ '⟦') →
    isPunct p = true → w.length < fuel →
    hugPunctF fuel (w ++ WRAP ++ ws ++ [p]) = w ++ [p] := by
  intro fuel
  induction fuel with
  | zero => intro w ws p _ _ _ _ h; omega
  | succ fuel ih =>
    intro w ws p hw hwsne hws hp _
    cases w with
    | nil =>
      show hugPunctF (fuel + 1)
        ('⟦' :: 'W' :: 'R' :: 'A' :: 'P' :: '⟧' :: (ws ++ [p])) = [p]
      simp only [hugPunctF]
      rw [if_pos (by simp [startsW, WRAP])]
      have hdrop : ('⟦' :: 'W' :: 'R' :: 'A' :: 'P' :: '⟧' :: (ws ++ [p])).drop 6 =
        ws ++ [p] := rfl
      rw [hdrop]
      obtain ⟨htw, hdw⟩ := takeWhile_run_concat (p := isSpace)
        (fun c hc => (hws c hc).1) (isPunct_props hp).1
      rw [htw, hdw]
      show (if ws ≠ [] ∧ isPunct p = true then p :: hugPunctF fuel []
            else '⟦' :: hugPunctF fuel _) = [p]
      rw [if_pos ⟨hwsne, hp⟩, hugPunctF_nil]
    | cons c w2 =>
      have hc : c ≠ '⟦' := hw c (List.mem_cons_self _ _)
      have hstep : hugPunctF (fuel + 1) (c :: (w2 ++ WRAP ++ ws ++ [p])) =
          c :: hugPunctF fuel (w2 ++ WRAP ++ ws ++ [p]) := by
        simp only [hugPunctF]
        rw [if_neg (by simp [startsW_WRAP_cons_ne hc])]
      simp only [List.cons_append] at hstep ⊢
      rw [hstep, ih w2 ws p (fun x hx => hw x (List.mem_cons_of_mem _ hx))
        hwsne hws hp
        (by rename_i hlen; simp only [List.length_cons] at hlen; omega)]

/-- Without intervening whitespace the punctuation-hugging pass does not
fire. -/
theorem hugPunctF_word_nospace : ∀ fuel (w : Str) (p : Char),
    (∀ c ∈ w, c ≠ '⟦') → isPunct p = true →
    hugPunctF fuel (w ++ WRAP ++ [p]) = w ++ WRAP ++ [p] := by
  intro fuel
  induction fuel with
  | zero => intro w p _ _; rfl
  | succ fuel ih =>
    intro w p hw hp
    cases w with
    | nil =>
      show hugPunctF (fuel + 1) ('⟦' :: 'W' :: 'R' :: 'A' :: 'P' :: '⟧' :: [p]) = _
      simp only [hugPunctF]
      rw [if_pos (by simp [startsW, WRAP])]
      have hdrop : ('⟦' :: 'W' :: 'R' :: 'A' :: 'P' :: '⟧' :: [p]).drop 6 = [p] := rfl
      rw [hdrop]
      have htw : ([p] : Str).takeWhile isSpace = [] := by
        rw [List.takeWhile_cons, if_neg (by simp [(isPunct_props hp).1])]
      have hdw : ([p] : Str).dropWhile isSpace = [p] := by
        rw [List.dropWhile_cons, if_neg (by simp [(isPunct_props hp).1])]
      rw [htw, hdw]
      show (if ([] : Str) ≠ [] ∧ isPunct p = true then p :: hugPunctF fuel []
            else '⟦' :: hugPunctF fuel ('W' :: 'R' :: 'A' :: 'P' :: '⟧' :: [p])) = _
      rw [if_neg (by simp)]
      rw [hugPunctF_eq_self_no_bracket fuel (by
        intro c hc
        rcases List.mem_cons.mp hc with rfl | hc
        · decide
        · rcases List.mem_cons.mp hc with rfl | hc
          · decide
          · rcases List.mem_cons.mp hc with rfl | hc
            · decide
            · rcases List.mem_cons.mp hc with rfl | hc
              · decide
              · rcases List.mem_cons.mp hc with rfl | hc
                · decide
                · rcases List.mem_cons.mp hc with rfl | hc
                  · exact (isPunct_props hp).2.2.2.2.2.1
                  · cases hc)]
      rfl
    | cons c w2 =>
      have hc : c ≠ '⟦' := hw c (List.mem_cons_self _ _)
      have hstep : hugPunctF (fuel + 1) (c :: (w2 ++ WRAP ++ [p])) =
          c :: hugPunctF fuel (w2 ++ WRAP ++ [p]) := by
        simp only [hugPunctF]
        rw [if_neg (by simp [startsW_WRAP_cons_ne hc])]
      simp only [List.cons_append] at hstep ⊢
      rw [hstep, ih w2 p (fun x hx => hw x (List.mem_cons_of_mem _ hx)) hp]

/-- The semicolon-period rule does not fire on a word, the sentinel and a
directly following punctuation character. -/
theorem hugSemiF_word_nospace : ∀ fuel (w : Str) (p : Char),
    (∀ c ∈ w, c ≠ '⟦') → isPunct p = true →
    hugSemiF fuel (w ++ WRAP ++ [p]) = w ++ WRAP ++ [p] := by
  intro fuel
  induction fuel with
  | zero => intro w p _ _; rfl
  | succ fuel ih =>
    intro w p hw hp
    cases w with
    | nil =>
      show hugSemiF (fuel + 1) ('⟦' :: 'W' :: 'R' :: 'A' :: 'P' :: '⟧' :: [p]) = _
      simp only [hugSemiF]
      rw [if_neg (by simp)]
      rw [hugSemiF_eq_self_no_bracket fuel (by
        intro c hc
        rcases List.mem_cons.mp hc with rfl | hc
        · decide
        · rcases List.mem_cons.mp hc with rfl | hc
          · decide
          · rcases List.mem_cons.mp hc with rfl | hc
            · decide
            · rcases List.mem_cons.mp hc with rfl | hc
              · decide
              · rcases List.mem_cons.mp hc with rfl | hc
                · decide
                · rcases List.mem_cons.mp hc with rfl | hc
                  · exact (isPunct_props hp).2.2.2.2.2.1
                  · cases hc)]
      rfl
    | cons c w2 =>
      by_cases hcm : c = ';' ∧ startsW WRAP (w2 ++ WRAP ++ [p]) = true
      · cases w2 with
        | cons d w3 =>
          exfalso
          have hd : d ≠ '⟦' := hw d (by simp)
          have hcm2 := hcm.2
          rw [List.cons_append, List.cons_append,
            startsW_WRAP_cons_ne hd] at hcm2
          cases hcm2
        | nil =>
          obtain ⟨rfl, -⟩ := hcm
          have htw : ([p] : Str).takeWhile isSpace = [] := by
            rw [List.takeWhile_cons, if_neg (by simp [(isPunct_props hp).1])]
          have hdw : ([p] : Str).dropWhile isSpace = [p] := by
            rw [List.dropWhile_cons, if_neg (by simp [(isPunct_props hp).1])]
          have hstep : hugSemiF (fuel + 1) (';' :: (WRAP ++ [p])) =
              ';' :: hugSemiF fuel (WRAP ++ [p]) := by
            simp only [hugSemiF]
            rw [if_pos (by simp [startsW, WRAP])]
            have hdrop : (WRAP ++ [p]).drop 6 = [p] := rfl
            rw [hdrop, htw, hdw]
            show (if ([] : Str) ≠ [] ∧ p = '.' then ';' :: '.' :: hugSemiF fuel []
              else ';' :: hugSemiF fuel (WRAP ++ [p])) =
                ';' :: hugSemiF fuel (WRAP ++ [p])
            rw [if_neg (by simp)]
          have hrec := ih [] p (by simp) hp
          simp only [List.nil_append] at hrec
          show hugSemiF (fuel + 1) (';' :: (WRAP ++ [p])) = ';' :: (WRAP ++ [p])
          rw [hstep, hrec]
      · have hstep : hugSemiF (fuel + 1) (c :: (w2 ++ WRAP ++ [p])) =
            c :: hugSemiF fuel (w2 ++ WRAP ++ [p]) := by
          simp only [hugSemiF]
          rw [if_neg (by simpa using hcm)]
        simp only [List.cons_append] at hstep ⊢
        rw [hstep, ih w2 p (fun x hx => hw x (List.mem_cons_of_mem _ hx)) hp]

/-- The catch-all pass turns the sentinel before a directly following
punctuation character into a single space. -/
theorem wrapToSpaceF_word : ∀ fuel (w : Str) (p : Char),
    (∀ c ∈ w, isSpace c = false ∧ c ≠ '⟦') → isPunct p = true →
    w.length < fuel →
    wrapToSpaceF fuel (w ++ WRAP ++ [p]) = w ++ ' ' :: [p] := by
  intro fuel
  induction fuel with
  | zero => intro w p _ _ h; omega
  | succ fuel ih =>
    intro w p hw hp hlen
    cases w with
    | nil =>
      show wrapToSpaceF (fuel + 1)
        ('⟦' :: 'W' :: 'R' :: 'A' :: 'P' :: '⟧' :: [p]) = ' ' :: [p]
      have hdw0 : List.dropWhile isSpace
          ('⟦' :: 'W' :: 'R' :: 'A' :: 'P' :: '⟧' :: [p]) =
          '⟦' :: 'W' :: 'R' :: 'A' :: 'P' :: '⟧' :: [p] := by
        rw [List.dropWhile_cons, if_neg (by decide)]
      simp only [wrapToSpaceF, hdw0]
      rw [if_pos (by simp [startsW, WRAP])]
      have hdrop : (('⟦' :: 'W' :: 'R' :: 'A' :: 'P' :: '⟧' :: [p]).drop 6) = [p] := rfl
      rw [hdrop]
      have hdw : ([p] : Str).dropWhile isSpace = [p] := by
        rw [List.dropWhile_cons, if_neg (by simp [(isPunct_props hp).1])]
      rw [hdw, wrapToSpaceF_single (isPunct_props hp).1
        (isPunct_props hp).2.2.2.2.2.1 fuel]
    | cons c w2 =>
      have hc := hw c (List.mem_cons_self _ _)
      have hstep : wrapToSpaceF (fuel + 1) (c :: (w2 ++ WRAP ++ [p])) =
          c :: wrapToSpaceF fuel (w2 ++ WRAP ++ [p]) := by
        have hsw : startsW WRAP (c :: (w2 ++ WRAP ++ [p])) = false :=
          startsW_WRAP_cons_ne hc.2
        have hsw2 : ¬(startsW WRAP (c :: (w2 ++ WRAP ++ [p])) = true) := by
          rw [hsw]
          simp
        have hdw0 : List.dropWhile isSpace (c :: (w2 ++ WRAP ++ [p])) =
            c :: (w2 ++ WRAP ++ [p]) := by
          rw [List.dropWhile_cons, if_neg (by simp [hc.1])]
        simp only [wrapToSpaceF, hdw0]
        rw [if_neg hsw2]
      simp only [List.cons_append] at hstep ⊢
      rw [hstep, ih w2 p (fun x hx => hw x (List.mem_cons_of_mem _ hx)) hp
        (by simp only [List.length_cons] at hlen; omega)]

theorem trimWsBeforeNl_cons (c : Char) (t : Str) :
    trimWsBeforeNl (c :: t) =
      if isHt c = true ∧ (trimWsBeforeNl t).headI = '\n' ∧ trimWsBeforeNl t ≠ []
      then trimWsBeforeNl t else c :: trimWsBeforeNl t := rfl

/-- `[ \t]+\n` does not fire on a newline-free run followed by a
non-newline character. -/
theorem trimWsBeforeNl_nonNl_tail {ws : Str} {p : Char}
    (hnl : '\n' ∉ ws) (hp : p ≠ '\n' ∧ isHt p = false) :
    trimWsBeforeNl (ws ++ [p]) = ws ++ [p] := by
  induction ws with
  | nil =>
    rw [List.nil_append, trimWsBeforeNl_cons, if_neg (fun h => h.2.2 rfl)]
    rfl
  | cons c t ih =>
    have iht := ih (fun h => hnl (List.mem_cons_of_mem _ h))
    have hcond : ¬(isHt c = true ∧ (t ++ [p]).headI = '\n' ∧ t ++ [p] ≠ []) := by
      rintro ⟨-, hhead, -⟩
      cases t with
      | nil => exact hp.1 (by simpa using hhead)
      | cons d t2 =>
        have hd : d ≠ '\n' := fun h => hnl (h ▸ by simp)
        exact hd (by simpa using hhead)
    rw [List.cons_append, trimWsBeforeNl_cons, iht, if_neg hcond]

/-- The punctuation-hugging scenario with a nonempty whitespace run between
the line break and the punctuation: the wrap marker and the whole run are
deleted and the punctuation attaches to the word. -/
theorem reflow_word_run {w ws : Str} {p : Char} (hne : w ≠ [])
    (hw : ∀ c ∈ w, PlainChar c) (hwsne : ws ≠ [])
    (hws : ∀ c ∈ ws, isAsciiBlank c = true) (hp : isPunct p = true) :
    reflow_segment (w ++ '\n' :: (ws ++ [p])) = w ++ [p] := by
  have hw : ∀ c ∈ w, isSpace c = false ∧ isInvisible c = false ∧ c ≠ 'Ã' ∧
      c ≠ 'Â' ∧ c ≠ 'â' ∧ c ≠ '⟦' := fun c hc => PlainChar_elim (hw c hc)
  have hws : ∀ c ∈ ws, isSpace c = true ∧ c ≠ '\n' ∧ c ≠ '\r' ∧
      c.toNat ≠ 0xA0 ∧ isInvisible c = false ∧ c ≠ 'Ã' ∧ c ≠ 'Â' ∧
      c ≠ 'â' ∧ c ≠ '⟦' := fun c hc => isAsciiBlank_props (hws c hc)
  obtain ⟨hps, hpi, hp3, hp4, hp5, hp6, hp7, hp8, hp9⟩ := isPunct_props hp
  have hnb : ∀ c ∈ w ++ '\n' :: (ws ++ [p]), c.toNat ≠ 0xA0 := by
    intro c hc
    rcases List.mem_append.mp hc with hc | hc
    · exact no_nbsp_of_not_space (hw c hc).1
    · rcases List.mem_cons.mp hc with rfl | hc
      · decide
      · rcases List.mem_append.mp hc with hc | hc
        · exact (hws c hc).2.2.2.1
        · rcases List.mem_cons.mp hc with rfl | hc
          · exact hp9
          · cases hc
  have hcr : '\r' ∉ w ++ '\n' :: (ws ++ [p]) := by
    intro hc
    rcases List.mem_append.mp hc with hc | hc
    · exact not_cr_of_not_space (hw _ hc).1 rfl
    · rcases List.mem_cons.mp hc with hc | hc
      · cases hc
      · rcases List.mem_append.mp hc with hc | hc
        · exact (hws _ hc).2.2.1 rfl
        · rcases List.mem_cons.mp hc with hc | hc
          · exact hp8 hc.symm
          · cases hc
  have hinv : ∀ c ∈ w ++ '\n' :: (ws ++ [p]), isInvisible c = false := by
    intro c hc
    rcases List.mem_append.mp hc with hc | hc
    · exact (hw c hc).2.1
    · rcases List.mem_cons.mp hc with rfl | hc
      · decide
      · rcases List.mem_append.mp hc with hc | hc
        · exact (hws c hc).2.2.2.2.1
        · rcases List.mem_cons.mp hc with rfl | hc
          · exact hpi
          · cases hc
  have hsig : hasMojibakeSigns (w ++ '\n' :: (ws ++ [p])) = false := by
    apply hasMojibakeSigns_eq_false
    intro c hc
    rcases List.mem_append.mp hc with hc | hc
    · exact ⟨(hw c hc).2.2.1, (hw c hc).2.2.2.1, (hw c hc).2.2.2.2.1⟩
    · rcases List.mem_cons.mp hc with rfl | hc
      · exact ⟨by decide, by decide, by decide⟩
      · rcases List.mem_append.mp hc with hc | hc
        · exact ⟨(hws c hc).2.2.2.2.2.1, (hws c hc).2.2.2.2.2.2.1,
            (hws c hc).2.2.2.2.2.2.2.1⟩
        · rcases List.mem_cons.mp hc with rfl | hc
          · exact ⟨hp3, hp4, hp5⟩
          · cases hc
  have hwnl : '\n' ∉ w := fun hc => not_nl_of_not_space (hw _ hc).1 rfl
  have hwht : ∀ c ∈ w, isHt c = false := fun c hc => isHt_eq_false (hw c hc).1
  have hwbr : ∀ c ∈ w, c ≠ '⟦' := fun c hc => (hw c hc).2.2.2.2.2
  have hwsnl : '\n' ∉ ws := fun hc => (hws _ hc).2.1 rfl
  have e0 : reflow_segment (w ++ '\n' :: (ws ++ [p])) =
      trimWsAfterNl (trimWsBeforeNl (wrapToSpace
      (hugSemi (hugPunct (markWraps (collapseNl (trimWsBeforeNl
      (stripInvisibles (normNewlines (replaceNbsp
      (nfkc (maybe_fix_mojibake (w ++ '\n' :: (ws ++ [p])))))))))))))) := rfl
  have htailnl : trimWsBeforeNl ('\n' :: (ws ++ [p])) = '\n' :: (ws ++ [p]) := by
    rw [trimWsBeforeNl_cons,
      trimWsBeforeNl_nonNl_tail hwsnl ⟨hp7, isHt_eq_false hps⟩,
      if_neg (by simp [isHt])]
  rw [e0, show maybe_fix_mojibake (w ++ '\n' :: (ws ++ [p])) =
      w ++ '\n' :: (ws ++ [p]) from by simp [maybe_fix_mojibake, hsig],
    nfkc_eq_self hnb, replaceNbsp_eq_self hnb, normNewlines_eq_self hcr,
    stripInvisibles_eq_self hinv, trimWsBeforeNl_front hwht, htailnl]
  cases ws with
  | nil => exact absurd rfl hwsne
  | cons d ws2 =>
    have hd : d ≠ '\n' := fun h => hwsnl (h ▸ List.mem_cons_self _ _)
    have hws2nl : '\n' ∉ ws2 ++ [p] := by
      intro hc
      rcases List.mem_append.mp hc with hc | hc
      · exact hwsnl (List.mem_cons_of_mem _ hc)
      · rcases List.mem_cons.mp hc with hc | hc
        · exact hp7 hc.symm
        · cases hc
    rw [List.cons_append, collapseNl_single hwnl hd hws2nl,
      markWraps_front hwnl hne hd,
      markWraps_eq_self hws2nl]
    have hhug : hugPunct (w ++ WRAP ++ (d :: ws2) ++ [p]) = w ++ [p] := by
      unfold hugPunct
      apply hugPunctF_word_run _ _ _ _ hwbr (by simp)
        (fun c hc => ⟨(hws c hc).1, (hws c hc).2.2.2.2.2.2.2.2⟩) hp
      simp [WRAP]
    rw [show (w ++ WRAP ++ d :: (ws2 ++ [p]) : Str) =
      w ++ WRAP ++ (d :: ws2) ++ [p] from by simp, hhug]
    have hnosent : hasSubstr WRAP (w ++ [p]) = false := by
      apply noSent_of_no_bracket
      intro hc
      rcases List.mem_append.mp hc with hc | hc
      · exact hwbr _ hc rfl
      · rcases List.mem_cons.mp hc with hc | hc
        · exact hp6 hc.symm
        · cases hc
    have hnl2 : '\n' ∉ w ++ [p] := by
      intro hc
      rcases List.mem_append.mp hc with hc | hc
      · exact hwnl hc
      · rcases List.mem_cons.mp hc with hc | hc
        · exact hp7 hc.symm
        · cases hc
    rw [show hugSemi (w ++ [p]) = w ++ [p] from hugSemiF_eq_self _ hnosent,
      show wrapToSpace (w ++ [p]) = w ++ [p] from wrapToSpaceF_eq_self _ hnosent,
      trimWsBeforeNl_eq_self hnl2]
    exact trimWsAfterNlGo_eq_self hnl2

theorem reflow_word_nospace {w : Str} {p : Char} (hne : w ≠ [])
    (hw : ∀ c ∈ w, PlainChar c) (hp : isPunct p = true) :
    reflow_segment (w ++ '\n' :: [p]) = w ++ ' ' :: [p] := by
  have hw : ∀ c ∈ w, isSpace c = false ∧ isInvisible c = false ∧ c ≠ 'Ã' ∧
      c ≠ 'Â' ∧ c ≠ 'â' ∧ c ≠ '⟦' := fun c hc => PlainChar_elim (hw c hc)
  obtain ⟨hps, hpi, hp3, hp4, hp5, hp6, hp7, hp8, hp9⟩ := isPunct_props hp
  have hnb : ∀ c ∈ w ++ '\n' :: [p], c.toNat ≠ 0xA0 := by
    intro c hc
    rcases List.mem_append.mp hc with hc | hc
    · exact no_nbsp_of_not_space (hw c hc).1
    · rcases List.mem_cons.mp hc with rfl | hc
      · decide
      · rcases List.mem_cons.mp hc with rfl | hc
        · exact hp9
        · cases hc
  have hcr : '\r' ∉ w ++ '\n' :: [p] := by
    intro hc
    rcases List.mem_append.mp hc with hc | hc
    · exact not_cr_of_not_space (hw _ hc).1 rfl
    · rcases List.mem_cons.mp hc with hc | hc
      · cases hc
      · rcases List.mem_cons.mp hc with hc | hc
        · exact hp8 hc.symm
        · cases hc
  have hinv : ∀ c ∈ w ++ '\n' :: [p], isInvisible c = false := by
    intro c hc
    rcases List.mem_append.mp hc with hc | hc
    · exact (hw c hc).2.1
    · rcases List.mem_cons.mp hc with rfl | hc
      · decide
      · rcases List.mem_cons.mp hc with rfl | hc
        · exact hpi
        · cases hc
  have hsig : hasMojibakeSigns (w ++ '\n' :: [p]) = false := by
    apply hasMojibakeSigns_eq_false
    intro c hc
    rcases List.mem_append.mp hc with hc | hc
    · exact ⟨(hw c hc).2.2.1, (hw c hc).2.2.2.1, (hw c hc).2.2.2.2.1⟩
    · rcases List.mem_cons.mp hc with rfl | hc
      · exact ⟨by decide, by decide, by decide⟩
      · rcases List.mem_cons.mp hc with rfl | hc
        · exact ⟨hp3, hp4, hp5⟩
        · cases hc
  have hwnl : '\n' ∉ w := fun hc => not_nl_of_not_space (hw _ hc).1 rfl
  have hwht : ∀ c ∈ w, isHt c = false := fun c hc => isHt_eq_false (hw c hc).1
  have hwbr : ∀ c ∈ w, c ≠ '⟦' := fun c hc => (hw c hc).2.2.2.2.2
  have e0 : reflow_segment (w ++ '\n' :: [p]) =
      trimWsAfterNl (trimWsBeforeNl (wrapToSpace
      (hugSemi (hugPunct (markWraps (collapseNl (trimWsBeforeNl
      (stripInvisibles (normNewlines (replaceNbsp
      (nfkc (maybe_fix_mojibake (w ++ '\n' :: [p]))))))))))))) := rfl
  have htailnl : trimWsBeforeNl ('\n' :: [p]) = '\n' :: [p] := by
    have h1 : trimWsBeforeNl [p] = [p] := by
      simp [trimWsBeforeNl]
    rw [trimWsBeforeNl_cons, h1, if_neg (by simp [isHt])]
  rw [e0, show maybe_fix_mojibake (w ++ '\n' :: [p]) =
      w ++ '\n' :: [p] from by simp [maybe_fix_mojibake, hsig],
    nfkc_eq_self hnb, replaceNbsp_eq_self hnb, normNewlines_eq_self hcr,
    stripInvisibles_eq_self hinv, trimWsBeforeNl_front hwht, htailnl,
    collapseNl_single hwnl hp7 (by simp),
    markWraps_front hwnl hne hp7]
  have hmark : markWraps ([] : Str) = [] := rfl
  rw [hmark]
  have hhug : hugPunct (w ++ WRAP ++ [p]) = w ++ WRAP ++ [p] := by
    unfold hugPunct
    exact hugPunctF_word_nospace _ _ _ hwbr hp
  rw [hhug]
  have hsemi : hugSemi (w ++ WRAP ++ [p]) = w ++ WRAP ++ [p] := by
    unfold hugSemi
    exact hugSemiF_word_nospace _ _ _ hwbr hp
  rw [hsemi]
  have hwrap : wrapToSpace (w ++ WRAP ++ [p]) = w ++ ' ' :: [p] := by
    unfold wrapToSpace
    apply wrapToSpaceF_word _ _ _ (fun c hc => ⟨(hw c hc).1, (hw c hc).2.2.2.2.2⟩) hp
    simp [WRAP]
  rw [hwrap]
  have hnl2 : '\n' ∉ w ++ ' ' :: [p] := by
    intro hc
    rcases List.mem_append.mp hc with hc | hc
    · exact hwnl hc
    · rcases List.mem_cons.mp hc with hc | hc
      · cases hc
      · rcases List.mem_cons.mp hc with hc | hc
        · exact hp7 hc.symm
        · cases hc
  rw [trimWsBeforeNl_eq_self hnl2]
  exact trimWsAfterNlGo_eq_self hnl2

/-- C1 counterexample: the punctuation-hugging pass uses the pattern
`⟦WRAP⟧\s+([.,;:!?%)\]\}])`, whose `\s+` demands at least one whitespace
character after the marker, so the spec scenario `"word\n, next"` does not
normalize to `"word, next"`; the code yields `"word , next"` (the marker is
directly followed by the comma, the hugging rule does not fire, and the
catch-all turns the marker into a space). -/
theorem C1_counterexample :
    reflow_segment ("word\n, next".data) ≠ ("word, next".data) ∧
    reflow_segment ("word\n, next".data) = ("word , next".data) := by
  exact ⟨by decide, by decide⟩

/-- C1 (amended): if the soft-wrap marker is followed by at least one
whitespace character — any nonempty run of ASCII blanks — and then a
closing punctuation character, the Reflow Normalizer deletes the marker and
the whole run so the punctuation attaches to the preceding word; if the
punctuation follows the marker directly (no whitespace), the marker instead
becomes a single space.  In particular the prose string `"word\n, next"`
normalizes to `"word , next"`. -/
theorem C1_punctuation_hug_amended :
    (∀ (w ws : Str) (p : Char), w ≠ [] → (∀ c ∈ w, PlainChar c) →
      ws ≠ [] → (∀ c ∈ ws, isAsciiBlank c = true) → isPunct p = true →
      reflow_segment (w ++ '\n' :: (ws ++ [p])) = w ++ [p]) ∧
    (∀ (w : Str) (p : Char), w ≠ [] → (∀ c ∈ w, PlainChar c) →
      isPunct p = true →
      reflow_segment (w ++ '\n' :: [p]) = w ++ ' ' :: [p]) ∧
    reflow_segment ("word\n, next".data) = ("word , next".data) :=
  ⟨fun _ _ _ hne hw hwsne hws hp => reflow_word_run hne hw hwsne hws hp,
   fun _ _ hne hw hp => reflow_word_nospace hne hw hp,
   by decide⟩

/-- C1 witness: the amended hugging rule evaluated on the word `word`, a
space-and-tab run of separation and the punctuation character `!`. -/
theorem C1_punctuation_hug_amended_witness :
    ("word".data ≠ ([] : Str)) ∧ (∀ c ∈ "word".data, PlainChar c) ∧
      (([' ', '\t'] : Str) ≠ []) ∧
      (∀ c ∈ ([' ', '\t'] : Str), isAsciiBlank c = true) ∧
      isPunct '!' = true ∧
      reflow_segment ("word".data ++ '\n' :: [' ', '\t'] ++ ['!']) =
        "word".data ++ ['!'] :=
  ⟨by decide, by decide, by decide, by decide, by decide,
    C1_punctuation_hug_amended.1 "word".data [' ', '\t'] '!' (by decide)
      (by decide) (by decide) (by decide) (by decide)⟩

/-- C3 counterexample: reflow is not idempotent.  The wrap-marking pass
`([^\n])\n(?!\n)([^\n])` consumes the character after the newline, so in
`"a\nb\nc"` only the first newline is marked (the `b` is consumed by the
first match); one pass yields `"a b\nc"` and a second pass yields
`"a b c"`. -/
theorem C3_counterexample :
    reflow_segment (reflow_segment ('a' :: '\n' :: 'b' :: '\n' :: ['c'])) ≠
      reflow_segment ('a' :: '\n' :: 'b' :: '\n' :: ['c']) := by decide

/-- C3 (amended): the Reflow Normalizer is idempotent on prose strings all
of whose characters are NFKC-inert (ASCII, the sentinel brackets, NBSP or
the stripped invisibles) and that contain no newline and no carriage
return.  Away from this set idempotence fails in the real program: the
wrap-marking pass of the counterexample consumes a character after each
newline, NFKC composition can assemble a fresh mojibake signature (`"A"` +
U+0303 + `"©"` composes to `"Ã©"`, which a second pass transcodes to
`"é"`), and invisible-character stripping can likewise create a signature
(`"Ã​©"` reflows to `"Ã©"`). -/
theorem C3_reflow_idempotent_amended (x : Str)
    (hx : ∀ c ∈ x, nfkcInert c = true ∧ c ≠ '\n' ∧ c ≠ '\r') :
    reflow_segment (reflow_segment x) = reflow_segment x := by
  have hx : ∀ c ∈ x, c ≠ '\n' ∧ c ≠ '\r' ∧ c ≠ 'Ã' ∧ c ≠ 'Â' ∧ c ≠ 'â' :=
    fun c hc => ⟨(hx c hc).2.1, (hx c hc).2.2,
      (nfkcInert_props (hx c hc).1).1, (nfkcInert_props (hx c hc).1).2.1,
      (nfkcInert_props (hx c hc).1).2.2⟩
  have hmem := reflow_segment_mem hx
  apply reflow_segment_eq_of_clean
  · apply hasMojibakeSigns_eq_false
    intro c hc
    rcases hmem c hc with h | h | h | h
    · rcases nfkc_mem c (stripInvisibles_mem c h) with h3 | h3
      · exact ⟨(hx c h3).2.2.1, (hx c h3).2.2.2.1, (hx c h3).2.2.2.2⟩
      · subst h3
        exact ⟨by decide, by decide, by decide⟩
    · subst h
      exact ⟨by decide, by decide, by decide⟩
    · subst h
      exact ⟨by decide, by decide, by decide⟩
    · subst h
      exact ⟨by decide, by decide, by decide⟩
  · intro c hc
    rcases hmem c hc with h | h | h | h
    · exact nfkc_no_nbsp c (stripInvisibles_mem c h)
    · subst h; decide
    · subst h; decide
    · subst h; decide
  · intro hc
    rcases hmem _ hc with h | h | h | h
    · rcases nfkc_mem _ (stripInvisibles_mem _ h) with h3 | h3
      · exact (hx _ h3).2.1 rfl
      · cases h3
    · cases h
    · cases h
    · cases h
  · intro c hc
    rcases hmem c hc with h | h | h | h
    · exact stripInvisibles_no_inv c h
    · subst h; decide
    · subst h; decide
    · subst h; decide
  · intro hc
    rcases hmem _ hc with h | h | h | h
    · rcases nfkc_mem _ (stripInvisibles_mem _ h) with h3 | h3
      · exact (hx _ h3).1 rfl
      · cases h3
    · cases h
    · cases h
    · cases h
  · rw [reflow_segment_shape hx]
    exact wrapToSpaceF_noSent _ _ (Nat.le_refl _)

/-- C3 witness: the amended idempotence evaluated on an NFKC-inert,
newline-free string that still exercises the sentinel-resolution passes. -/
theorem C3_reflow_idempotent_amended_witness :
    (∀ c ∈ "x⟦WRAP⟧ .".data,
      nfkcInert c = true ∧ c ≠ '\n' ∧ c ≠ '\r') ∧
    reflow_segment (reflow_segment ("x⟦WRAP⟧ .".data)) =
      reflow_segment ("x⟦WRAP⟧ .".data) :=
  ⟨by decide, C3_reflow_idempotent_amended "x⟦WRAP⟧ .".data (by decide)⟩

/-- C7: the mojibake repair is total and conservative: with no
corruption-signature match the string is returned unchanged; with a
signature but a failing cp1252-encode/UTF-8-decode attempt the original is
returned unchanged; and any change implies a signature was present and the
transcode succeeded and produced exactly the result.  (Totality — never
raising — is expressed by the repair being a total function into `Str`,
with the fallible transcode confined to `Option`.) -/
theorem C7_mojibake_conservative :
    (∀ s : Str, hasMojibakeSigns s = false → maybe_fix_mojibake s = s) ∧
    (∀ s : Str, hasMojibakeSigns s = true → transcode s = none →
      maybe_fix_mojibake s = s) ∧
    (∀ s : Str, maybe_fix_mojibake s ≠ s →
      hasMojibakeSigns s = true ∧
        ∃ r, transcode s = some r ∧ maybe_fix_mojibake s = r) := by
  refine ⟨?_, ?_, ?_⟩
  · intro s h
    simp [maybe_fix_mojibake, h]
  · intro s h1 h2
    simp [maybe_fix_mojibake, h1, h2]
  · intro s hne
    by_cases h1 : hasMojibakeSigns s = true
    · refine ⟨h1, ?_⟩
      cases h2 : transcode s with
      | none => exact absurd (by simp [maybe_fix_mojibake, h1, h2]) hne
      | some r => exact ⟨r, rfl, by simp [maybe_fix_mojibake, h1, h2]⟩
    · have h1f : hasMojibakeSigns s = false := by simpa using h1
      exact absurd (by simp [maybe_fix_mojibake, h1f]) hne

/-- C7 witness: a signature-free string is returned byte-identical, and a
string with a signature whose transcode fails (`"Ã."` encodes to the invalid
UTF-8 byte pair `C3 2E`) is returned unchanged. -/
theorem C7_mojibake_conservative_witness :
    maybe_fix_mojibake ("abc".data) = "abc".data ∧
    maybe_fix_mojibake ("Ã.".data) = "Ã.".data :=
  ⟨C7_mojibake_conservative.1 _ (by decide),
   C7_mojibake_conservative.2.1 _ (by decide) (by decide)⟩

/-- C2 counterexample: with a configured depth bound of `0` the pagination
loop is not unbounded; the depth test `pageCount == mArgs.maxdepth` fires
immediately (0 == 0), so on a one-page chain the driver emits no page at all
and reports the depth-limit terminal, not the end-of-book terminal. -/
theorem C2_counterexample :
    proofRead (fun _ => none) (some 0) 1 ("a".data) = Outcome.depthLimit [] ∧
    proofRead (fun _ => none) none 1 ("a".data) =
      Outcome.endOfBook ["a".data] := by
  exact ⟨by decide, by decide⟩

/-- C2 (amended): only an absent depth bound makes the loop unbounded: with
`maxdepth = none` the driver never reports the depth-limit terminal, and on
any finite chain it emits every page and ends with the end-of-book terminal.
A depth bound of `0`, by contrast, terminates immediately with the
depth-limit terminal and zero pages emitted. -/
theorem C2_depth_bound_amended (next : Str → Option Str) :
    (∀ fuel url emitted l,
      proofReadLoop next none fuel url emitted ≠ Outcome.depthLimit l) ∧
    (∀ url l, Chain next url l → ∀ fuel, l.length ≤ fuel → ∀ emitted,
      proofReadLoop next none fuel url emitted =
        Outcome.endOfBook (emitted ++ l)) ∧
    (∀ url fuel, proofRead next (some 0) (fuel + 1) url =
      Outcome.depthLimit []) := by
  refine ⟨?_, ?_, ?_⟩
  · intro fuel
    induction fuel with
    | zero => intro url emitted l; simp [proofReadLoop]
    | succ fuel ih =>
      intro url emitted l
      simp only [proofReadLoop]
      rw [if_neg (by simp)]
      cases h : next url with
      | none => simp
      | some u => exact ih u (emitted ++ [url]) l
  · intro url l hchain
    induction hchain with
    | last h =>
      intro fuel hfuel emitted
      cases fuel with
      | zero => simp at hfuel
      | succ f =>
        simp only [proofReadLoop]
        rw [if_neg (by simp), h]
    | @step u v l2 h hch ih =>
      intro fuel hfuel emitted
      cases fuel with
      | zero => simp at hfuel
      | succ f =>
        simp only [proofReadLoop]
        rw [if_neg (by simp), h]
        show proofReadLoop next none f v (emitted ++ [u]) =
          Outcome.endOfBook (emitted ++ u :: l2)
        rw [ih f (by simpa using Nat.le_of_succ_le_succ hfuel) (emitted ++ [u])]
        simp
  · intro url fuel
    simp [proofRead, proofReadLoop]

/-- C2 witness: the amended statement evaluated on a concrete one-page
chain with the bound absent. -/
theorem C2_depth_bound_amended_witness :
    proofReadLoop (fun _ => none) none 2 ("a".data) [] =
      Outcome.endOfBook ["a".data] :=
  (C2_depth_bound_amended (fun _ => none)).2.1 ("a".data) ["a".data]
    (Chain.last rfl) 2 (by decide) []

/-- C8: running the pagination driver with depth bound 2 on the five-page
chain `p1 → … → p5` (each of the first four pages yields a next URL)
processes and emits exactly the two pages `p1`, `p2` and finishes with the
depth-limit terminal, not the end-of-book terminal. -/
theorem C8_depth_limit_two :
    Chain chain5 ("p1".data)
      ["p1".data, "p2".data, "p3".data, "p4".data, "p5".data] ∧
    proofRead chain5 (some 2) 10 ("p1".data) =
      Outcome.depthLimit ["p1".data, "p2".data] := by
  constructor
  · exact Chain.step (by decide) (Chain.step (by decide) (Chain.step (by decide)
      (Chain.step (by decide) (Chain.last (by decide)))))
  · decide

/-! Structure of the code-span segmentation. -/

theorem findFence_spec : ∀ {l pre rest : Str},
    findFence l = some (pre, rest) →
    l = pre ++ [tick, tick, tick] ++ rest := by
  intro l
  induction l with
  | nil => intro pre rest h; cases h
  | cons c t ih =>
    intro pre rest h
    simp only [findFence] at h
    by_cases hs : startsW [tick, tick, tick] (c :: t) = true
    · rw [if_pos hs] at h
      obtain ⟨r, hr⟩ := startsW_iff.mp hs
      injection h with h1
      injection h1 with h2 h3
      subst h2
      subst h3
      simpa [hr] using hr
    · rw [if_neg (by simpa using hs)] at h
      cases hf : findFence t with
      | none => rw [hf] at h; cases h
      | some pr =>
        obtain ⟨pre2, rest2⟩ := pr
        rw [hf] at h
        injection h with h1
        injection h1 with h2 h3
        subst h3
        have := ih hf
        subst h2
        simp [this]

theorem matchCodeAt_inlineAt_spec : ∀ {l m rest : Str},
    matchCodeAt.inlineAt l = some (m, rest) →
    l = m ++ rest ∧ m ≠ [] ∧ m.head? = some tick ∧ m.getLast? = some tick := by
  intro l m rest h
  cases l with
  | nil => cases h
  | cons c t =>
    simp only [matchCodeAt.inlineAt] at h
    split at h
    case isTrue hc =>
      split at h
      case h_1 d t2 heq =>
        split at h
        case isTrue hd =>
          injection h with h1
          injection h1 with h2 h3
          subst h3
          subst hc
          subst hd
          refine ⟨?_, by rw [← h2]; simp, by rw [← h2]; simp, ?_⟩
          · rw [← h2]
            have hsplit : t.takeWhile (fun d => decide (d ≠ tick ∧ d ≠ '\n')) ++
                t.dropWhile (fun d => decide (d ≠ tick ∧ d ≠ '\n')) = t :=
              List.takeWhile_append_dropWhile _ _
            rw [heq] at hsplit
            calc (tick : Char) :: t
                = tick :: (t.takeWhile (fun d => decide (d ≠ tick ∧ d ≠ '\n')) ++
                    tick :: t2) := by rw [hsplit]
              _ = tick :: t.takeWhile (fun d => decide (d ≠ tick ∧ d ≠ '\n')) ++
                    [tick] ++ t2 := by simp
          · rw [← h2]
            exact List.getLast?_concat _
        case isFalse hd => cases h
      case h_2 heq => cases h
    case isFalse hc => cases h

theorem matchCodeAt_spec : ∀ {l m rest : Str},
    matchCodeAt l = some (m, rest) →
    l = m ++ rest ∧ m ≠ [] ∧ m.head? = some tick ∧ m.getLast? = some tick := by
  intro l m rest h
  simp only [matchCodeAt] at h
  by_cases hs : startsW [tick, tick, tick] l = true
  · rw [if_pos hs] at h
    cases hf : findFence (l.drop 3) with
    | none =>
      rw [hf] at h
      exact matchCodeAt_inlineAt_spec h
    | some pr =>
      obtain ⟨body, rest2⟩ := pr
      rw [hf] at h
      injection h with h1
      injection h1 with h2 h3
      subst h3
      obtain ⟨r, hr⟩ := startsW_iff.mp hs
      have hdrop : l.drop 3 = r := by rw [hr]; rfl
      have hbody := findFence_spec hf
      rw [hdrop] at hbody
      constructor
      · rw [hr, hbody, ← h2]
        simp
      · refine ⟨by rw [← h2]; simp, by rw [← h2]; simp, ?_⟩
        rw [← h2]
        rw [show ([tick, tick, tick] : Str) ++ body ++ [tick, tick, tick] =
          (tick :: tick :: tick :: (body ++ [tick, tick])) ++ [tick] from by simp]
        exact List.getLast?_concat _
  · rw [if_neg (by simpa using hs)] at h
    exact matchCodeAt_inlineAt_spec h

theorem findCode_spec : ∀ {l pre m rest : Str},
    findCode l = some (pre, m, rest) →
    l = pre ++ m ++ rest ∧ m ≠ [] ∧ m.head? = some tick ∧
      m.getLast? = some tick := by
  intro l
  induction l with
  | nil => intro pre m rest h; cases h
  | cons c t ih =>
    intro pre m rest h
    simp only [findCode] at h
    cases hm : matchCodeAt (c :: t) with
    | some pr =>
      obtain ⟨m2, rest2⟩ := pr
      rw [hm] at h
      injection h with h1
      injection h1 with h2 h3
      injection h3 with h4 h5
      subst h2
      subst h4
      subst h5
      obtain ⟨hsplit, hne, hh, hl⟩ := matchCodeAt_spec hm
      exact ⟨by simpa using hsplit, hne, hh, hl⟩
    | none =>
      rw [hm] at h
      cases hf : findCode t with
      | none => rw [hf] at h; cases h
      | some pr =>
        obtain ⟨pre2, m2, rest2⟩ := pr
        rw [hf] at h
        injection h with h1
        injection h1 with h2 h3
        injection h3 with h4 h5
        subst h4
        subst h5
        obtain ⟨hsplit, hne, hh, hl⟩ := ih hf
        subst h2
        exact ⟨by simp [hsplit], hne, hh, hl⟩

/-- The segments cover the raw string exactly. -/
theorem splitSpansF_cover : ∀ fuel (l : Str),
    ((splitSpansF fuel l).map segStr).flatten = l := by
  intro fuel
  induction fuel with
  | zero => intro l; simp [splitSpansF, segStr]
  | succ fuel ih =>
    intro l
    simp only [splitSpansF]
    cases hf : findCode l with
    | none => simp [segStr]
    | some pr =>
      obtain ⟨pre, m, rest⟩ := pr
      obtain ⟨hsplit, _, _, _⟩ := findCode_spec hf
      simp only [List.map_cons, List.flatten_cons, segStr, ih]
      rw [hsplit]
      simp

/-- Every code segment is a span of the raw string delimited by backticks. -/
theorem splitSpansF_code_shape : ∀ fuel {l m : Str},
    Seg.code m ∈ splitSpansF fuel l →
    (∃ A B, l = A ++ m ++ B) ∧ m ≠ [] ∧ m.head? = some tick ∧
      m.getLast? = some tick := by
  intro fuel
  induction fuel with
  | zero =>
    intro l m h
    simp [splitSpansF] at h
  | succ fuel ih =>
    intro l m h
    simp only [splitSpansF] at h
    cases hf : findCode l with
    | none =>
      rw [hf] at h
      simp at h
    | some pr =>
      obtain ⟨pre, m2, rest⟩ := pr
      rw [hf] at h
      obtain ⟨hsplit, hne, hh, hl⟩ := findCode_spec hf
      rcases List.mem_cons.mp h with h1 | h1
      · cases h1
      · rcases List.mem_cons.mp h1 with h2 | h2
        · obtain rfl : m2 = m := by injection h2.symm
          exact ⟨⟨pre, rest, hsplit⟩, hne, hh, hl⟩
        · obtain ⟨⟨A, B, hAB⟩, hne2, hh2, hl2⟩ := ih h2
          refine ⟨⟨pre ++ m2 ++ A, B, ?_⟩, hne2, hh2, hl2⟩
          rw [hsplit, hAB]
          simp

/-- A segment's transform appears contiguously in the joined output. -/
theorem flatten_of_mem {segs : List Seg} {s : Seg} (h : s ∈ segs) :
    ∃ A B, (segs.map applySeg).flatten = A ++ applySeg s ++ B := by
  obtain ⟨u, v, rfl⟩ := List.append_of_mem h
  refine ⟨((u.map applySeg).flatten), ((v.map applySeg).flatten), ?_⟩
  simp

/-- Leading whitespace stripping stops inside a part that has a non-space
character. -/
theorem dropWhile_append_of_nonWs {X R : Str} {c0 : Char}
    (hc0 : c0 ∈ X) (hns : isSpace c0 = false) :
    X.dropWhile isSpace ++ R = (X ++ R).dropWhile isSpace ∧
      X.dropWhile isSpace ≠ [] := by
  induction X with
  | nil => cases hc0
  | cons c t ih =>
    rw [List.cons_append, List.dropWhile_cons, List.dropWhile_cons]
    by_cases hc : isSpace c = true
    · rcases List.mem_cons.mp hc0 with rfl | hc0m
      · rw [hc] at hns; cases hns
      · rw [if_pos hc, if_pos hc]
        exact ih hc0m
    · rw [if_neg hc, if_neg hc]
      exact ⟨rfl, by simp⟩

/-- Leading whitespace stripping keeps a right part whose head is
non-whitespace. -/
theorem dropWhile_append_head {p : Char → Bool} {A m : Str} {c0 : Char}
    (hh : m.head? = some c0) (hc0 : p c0 = false) :
    ∃ A2, (A ++ m).dropWhile p = A2 ++ m := by
  induction A with
  | nil =>
    cases m with
    | nil => cases hh
    | cons d t =>
      injection hh with hh1
      subst hh1
      refine ⟨[], ?_⟩
      rw [List.nil_append, List.dropWhile_cons, if_neg (by simp [hc0])]
  | cons c t ih =>
    rw [List.cons_append, List.dropWhile_cons]
    by_cases hc : p c = true
    · rw [if_pos hc]
      exact ih
    · rw [if_neg hc]
      exact ⟨c :: t, rfl⟩

/-- Stripping preserves the absence of any substring. -/
theorem pyStrip_noSub {pat l : Str} (h : hasSubstr pat l = false) :
    hasSubstr pat (pyStrip l) = false := by
  unfold pyStrip
  have h1 : hasSubstr pat (l.dropWhile isSpace) = false := by
    by_contra hc
    have hc2 : hasSubstr pat (l.dropWhile isSpace) = true := by simpa using hc
    have := hasSubstr_append_left (a := l.takeWhile isSpace) hc2
    rw [List.takeWhile_append_dropWhile] at this
    rw [this] at h
    cases h
  by_contra hc
  have hc2 : hasSubstr pat (dropRightWhile isSpace (l.dropWhile isSpace)) = true := by
    simpa using hc
  obtain ⟨r, hr, -⟩ := dropRightWhile_spec isSpace (l.dropWhile isSpace)
  have := hasSubstr_append_right (b := r) hc2
  rw [← hr] at this
  rw [this] at h1
  cases h1

theorem tick_not_mem_WRAP : tick ∉ WRAP := by decide

theorem getLast?_append_right {A B : Str} {c : Char}
    (hB : B.getLast? = some c) : (A ++ B).getLast? = some c := by
  rw [List.getLast?_append, hB]
  rfl

/-- No occurrence of the sentinel can start inside a part that ends with a
backtick and continue into the next part. -/
theorem wrap_not_straddle_right {A p1 p2 : Str}
    (hp12 : WRAP = p1 ++ p2) (hp1 : p1 ≠ []) (ha : ∃ a, A = a ++ p1)
    (hA : A.getLast? = some tick) : False := by
  obtain ⟨a, rfl⟩ := ha
  have h1 : p1.getLast? = some tick := by
    rw [List.getLast?_append] at hA
    cases hg : p1.getLast? with
    | none =>
      rw [List.getLast?_eq_none_iff] at hg
      exact (hp1 hg).elim
    | some x =>
      rw [hg] at hA
      injection hA with e
      rw [e]
  obtain ⟨l2, rfl⟩ := List.getLast?_eq_some_iff.mp h1
  have : tick ∈ WRAP := by
    rw [hp12]
    exact List.mem_append.mpr (Or.inl (by simp))
  exact tick_not_mem_WRAP this

/-- No occurrence of the sentinel can end inside a part that starts with a
backtick, having begun in the previous part. -/
theorem wrap_not_straddle_left {B p1 p2 : Str}
    (hp12 : WRAP = p1 ++ p2) (hp2 : p2 ≠ []) (hsw : startsW p2 B = true)
    (hB : B.head? = some tick) : False := by
  obtain ⟨r, hr⟩ := startsW_iff.mp hsw
  cases p2 with
  | nil => exact hp2 rfl
  | cons x p2t =>
    rw [hr, List.cons_append, List.head?_cons] at hB
    injection hB with e
    have : x ∈ WRAP := by
      rw [hp12]
      exact List.mem_append.mpr (Or.inr (List.mem_cons_self _ _))
    rw [e] at this
    exact tick_not_mem_WRAP this

/-- No piece of the segmented, reflowed output contains the sentinel when the
raw input does not. -/
theorem splitSpansF_flatten_noSent : ∀ fuel (l : Str),
    hasSubstr WRAP l = false →
    hasSubstr WRAP (((splitSpansF fuel l).map applySeg).flatten) = false := by
  intro fuel
  induction fuel with
  | zero =>
    intro l _
    simp only [splitSpansF, List.map_cons, List.map_nil, List.flatten_cons,
      List.flatten_nil, List.append_nil, applySeg]
    exact reflow_segment_noSent l
  | succ fuel ih =>
    intro l h
    simp only [splitSpansF]
    cases hf : findCode l with
    | none =>
      simp only [List.map_cons, List.map_nil, List.flatten_cons,
        List.flatten_nil, List.append_nil, applySeg]
      exact reflow_segment_noSent l
    | some pr =>
      obtain ⟨pre, m, rest⟩ := pr
      obtain ⟨hsplit, hne, hh, hl⟩ := findCode_spec hf
      have hm : hasSubstr WRAP m = false := by
        by_contra hc
        have hc2 : hasSubstr WRAP m = true := by simpa using hc
        have := hasSubstr_append_left (a := pre)
          (hasSubstr_append_right (b := rest) hc2)
        rw [← List.append_assoc, ← hsplit] at this
        rw [this] at h
        cases h
      have hrest : hasSubstr WRAP rest = false := by
        by_contra hc
        have hc2 : hasSubstr WRAP rest = true := by simpa using hc
        have := hasSubstr_append_left (a := pre ++ m) hc2
        rw [← hsplit] at this
        rw [this] at h
        cases h
      simp only [List.map_cons, List.flatten_cons, applySeg]
      rw [← List.append_assoc]
      by_contra hcon
      have hcon2 : hasSubstr WRAP ((reflow_segment pre ++ m) ++
          ((splitSpansF fuel rest).map applySeg).flatten) = true := by
        simpa using hcon
      rcases hasSubstr_append_cases hcon2 with h1 | h1 |
        ⟨p1, p2, hp12, hp1, hp2, ha, hsw⟩
      · rcases hasSubstr_append_cases h1 with h2 | h2 |
          ⟨p1, p2, hp12, hp1, hp2, ha, hsw⟩
        · rw [reflow_segment_noSent pre] at h2
          cases h2
        · rw [hm] at h2
          cases h2
        · exact absurd (wrap_not_straddle_left hp12 hp2 hsw hh) (by simp)
      · rw [ih rest hrest] at h1
        cases h1
      · exact absurd (wrap_not_straddle_right hp12 hp1 ha
          (getLast?_append_right hl)) (by simp)

/-- C4 counterexample: a raw input carrying the sentinel inside a code span
passes through `_reflow` unchanged, so the output does contain the sentinel
`⟦WRAP⟧` — the universal no-leakage claim fails for inputs that already
contain the marker. -/
theorem C4_counterexample :
    reflow ("`⟦WRAP⟧`".data) = "`⟦WRAP⟧`".data ∧
    hasSubstr WRAP (reflow ("`⟦WRAP⟧`".data)) = true := by
  exact ⟨by decide, by decide⟩

/-- C4 (amended): for every raw input string that does not itself contain
the sentinel `⟦WRAP⟧`, the output of the full reflow pipeline contains no
occurrence of the sentinel: the prose pipeline always resolves every marker
it introduces, code spans cannot contain one unless the input did, and no
occurrence can straddle a segment boundary. -/
theorem C4_no_sentinel_amended (raw : Str)
    (h : hasSubstr WRAP raw = false) :
    hasSubstr WRAP (reflow raw) = false := by
  unfold reflow
  exact pyStrip_noSub (splitSpansF_flatten_noSent _ raw h)

/-- C4 witness: a sentinel-free input with a wrapped line and a code span
reflows to sentinel-free output. -/
theorem C4_no_sentinel_amended_witness :
    hasSubstr WRAP ("a\nb `x`".data) = false ∧
    hasSubstr WRAP (reflow ("a\nb `x`".data)) = false :=
  ⟨by decide, C4_no_sentinel_amended ("a\nb `x`".data) (by decide)⟩

/-- C5: every span matched by the code-span rule (fenced or inline) appears
byte-for-byte unchanged as a contiguous substring of the output of
`_reflow`, internal whitespace and line breaks included; the pipeline passes
code segments through verbatim and the final strip cannot cut into a span
because spans start and end with a backtick. -/
theorem C5_code_preservation (raw m : Str)
    (h : Seg.code m ∈ splitSpans raw) :
    ∃ A B, reflow raw = A ++ m ++ B := by
  obtain ⟨-, hne, hh, hl⟩ := splitSpansF_code_shape _ h
  obtain ⟨A, B, hAB⟩ := flatten_of_mem h
  have e : reflow raw = pyStrip (A ++ m ++ B) := by
    unfold reflow
    rw [hAB]
    rfl
  have htick : isSpace tick = false := by decide
  rw [e]
  unfold pyStrip
  rw [List.append_assoc]
  have hmb : (m ++ B).head? = some tick := by
    cases m with
    | nil => exact absurd rfl hne
    | cons x t =>
      injection hh with e
      rw [List.cons_append, List.head?_cons, e]
  obtain ⟨A2, hA2⟩ := dropWhile_append_head (m := m ++ B) hmb htick
  rw [hA2]
  obtain ⟨m0, hm0⟩ := List.getLast?_eq_some_iff.mp hl
  rw [← List.append_assoc]
  rw [dropRightWhile_append isSpace (A2 ++ m) B]
  by_cases hB : dropRightWhile isSpace B = []
  · rw [if_pos hB]
    rw [hm0, ← List.append_assoc]
    rw [dropRightWhile_eq_self isSpace (A2 ++ m0) tick htick]
    exact ⟨A2, [], by simp [hm0]⟩
  · rw [if_neg hB]
    exact ⟨A2, dropRightWhile isSpace B, by simp⟩

/-- C5 witness: a fenced code span with an internal line break survives
byte-for-byte in the reflowed output. -/
theorem C5_code_preservation_witness :
    (Seg.code ("```a\nb```".data) ∈ splitSpans ("x ```a\nb``` y".data)) ∧
    ∃ A B, reflow ("x ```a\nb``` y".data) = A ++ "```a\nb```".data ++ B :=
  ⟨by decide, C5_code_preservation _ _ (by decide)⟩

mutual

/-- Every node selected by `.nav-links a, nav a` is an anchor element of the
document. -/
theorem navAnchors_sub (n : Node) (b : Bool) (x : Node)
    (h : x ∈ navAnchors n b) : x ∈ elemsOf n ∧ nodeName x = "a".data := by
  cases n with
  | text s => simp [navAnchors] at h
  | elem nm attrs cs =>
    simp only [navAnchors] at h
    rcases List.mem_append.mp h with h1 | h1
    · by_cases hc : b = true ∧ nm = "a".data
      · rw [if_pos hc] at h1
        rcases List.mem_cons.mp h1 with rfl | h2
        · exact ⟨by rw [elemsOf]; exact List.mem_cons_self _ _,
            by rw [nodeName]; exact hc.2⟩
        · cases h2
      · rw [if_neg hc] at h1
        cases h1
    · have := navAnchorsList_sub cs _ x h1
      exact ⟨by rw [elemsOf]; exact List.mem_cons_of_mem _ this.1, this.2⟩

/-- Forest version of `navAnchors_sub`. -/
theorem navAnchorsList_sub (cs : List Node) (b : Bool) (x : Node)
    (h : x ∈ navAnchorsList cs b) : x ∈ elemsList cs ∧ nodeName x = "a".data := by
  cases cs with
  | nil => simp [navAnchorsList] at h
  | cons c cs =>
    simp only [navAnchorsList] at h
    rcases List.mem_append.mp h with h1 | h1
    · have := navAnchors_sub c b x h1
      exact ⟨by rw [elemsList]; exact List.mem_append_left _ this.1, this.2⟩
    · have := navAnchorsList_sub cs b x h1
      exact ⟨by rw [elemsList]; exact List.mem_append_right _ this.1, this.2⟩

end

/-- When the document-order text-prefix scan over all anchors fails, the
navigation-container fallback also returns nothing: any anchor it could
return would have satisfied the scan's predicate. -/
theorem navBranch_eq_none (url : Str) (doc : Node)
    (hft : firstTextNext doc = none) :
    getCurrentNextPageURL.navBranch url doc = none := by
  unfold getCurrentNextPageURL.navBranch
  split
  next a hN =>
    split
    next h hH =>
      by_cases hLab : labelStartsNext a = true
      · exfalso
        have hmem : a ∈ navAnchors doc false := by
          unfold firstNavAnchor at hN
          exact List.mem_of_mem_head? (Option.mem_def.mpr hN)
        obtain ⟨hin, hname⟩ := navAnchors_sub doc false a hmem
        have hall : a ∈ allAnchors doc := by
          unfold allAnchors
          exact List.mem_filter.mpr ⟨hin, by simp [hname]⟩
        unfold firstTextNext at hft
        have hnp := List.find?_eq_none.mp hft a hall
        exact hnp (by simp [hLab, hH])
      · simp [hLab]
    next hH => rfl
  next hN => rfl

/-- Strategy 3 behaves identically with and without the fourth fallback:
when it finds an anchor the predicate guarantees a truthy `href`, and when
it finds none the fallback returns nothing either. -/
theorem afterRel_eq (url : Str) (doc : Node) :
    getCurrentNextPageURL.afterRel url doc = getNextPageURLNoNav.afterRel url doc := by
  unfold getCurrentNextPageURL.afterRel getNextPageURLNoNav.afterRel
  cases hft : firstTextNext doc with
  | none => exact navBranch_eq_none url doc hft
  | some a =>
    have hp := List.find?_some (show List.find? _ (allAnchors doc) = some a by
      unfold firstTextNext at hft; exact hft)
    simp only [decide_eq_true_eq] at hp
    show (match truthyHref a with
        | some h => some (urljoin url h)
        | none => getCurrentNextPageURL.navBranch url doc) =
      (match truthyHref a with
        | some h => some (urljoin url h)
        | none => none)
    cases hH : truthyHref a with
    | none =>
      rw [hH] at hp
      simp at hp
    | some h => rfl

/-- Strategy 2 behaves identically with and without the fourth fallback. -/
theorem afterLink_eq (url : Str) (doc : Node) :
    getCurrentNextPageURL.afterLink url doc = getNextPageURLNoNav.afterLink url doc := by
  unfold getCurrentNextPageURL.afterLink getNextPageURLNoNav.afterLink
  cases firstARelNext doc with
  | none => exact afterRel_eq url doc
  | some a =>
    show (match truthyHref a with
        | some h => some (urljoin url h)
        | none => getCurrentNextPageURL.afterRel url doc) =
      (match truthyHref a with
        | some h => some (urljoin url h)
        | none => getNextPageURLNoNav.afterRel url doc)
    cases truthyHref a with
    | none => exact afterRel_eq url doc
    | some h => rfl

/-- C9: for a document whose only pagination markup is the anchor
`<a href="/p2">Next Chapter</a>` — no `link` element with relation `next`
and no `rel` attribute on any anchor — the locator returns the absolute
form of `/p2` resolved against the page URL, for every page URL, and it
finds it via the text-prefix fallback: the first two strategies produce no
candidate and the document-order scan selects that anchor. -/
theorem C9_text_prefix_fallback (url : Str) :
    getCurrentNextPageURL url nextChapterDoc = some (urljoin url "/p2".data) ∧
    firstLinkRelNext nextChapterDoc = none ∧
    firstARelNext nextChapterDoc = none ∧
    firstTextNext nextChapterDoc =
      some (Node.elem "a".data [("href".data, "/p2".data)]
        [Node.text "Next Chapter".data]) := by
  exact ⟨rfl, rfl, rfl, rfl⟩

/-- C9 witness instance: at the concrete page URL `http://example.com/p1`
the locator yields `http://example.com/p2`. -/
theorem C9_text_prefix_fallback_witness :
    getCurrentNextPageURL ("http://example.com/p1".data) nextChapterDoc =
      some ("http://example.com/p2".data) := by
  have h := C9_text_prefix_fallback ("http://example.com/p1".data)
  rw [h.1]
  rfl

/-- C10: the final navigation-container fallback of the locator is
redundant: the function with that branch replaced by `None` is
extensionally equal to the original, because any anchor the branch could
return (truthy `href`, trimmed label starting case-insensitively with
`next`) would already have been returned by the earlier document-order
text-prefix scan over all anchors. -/
theorem C10_nav_fallback_redundant (url : Str) (doc : Node) :
    getCurrentNextPageURL url doc = getNextPageURLNoNav url doc := by
  unfold getCurrentNextPageURL getNextPageURLNoNav
  cases firstLinkRelNext doc with
  | none => exact afterLink_eq url doc
  | some l =>
    show (match truthyHref l with
        | some h => some (urljoin url h)
        | none => getCurrentNextPageURL.afterLink url doc) =
      (match truthyHref l with
        | some h => some (urljoin url h)
        | none => getNextPageURLNoNav.afterLink url doc)
    cases truthyHref l with
    | none => exact afterLink_eq url doc
    | some h => rfl

/-! Structure lemmas for the `walk` accumulator, for the block-separation
claim. -/

theorem exists_suffix_refl (ps : List Str) : ∃ q, ps = ps ++ q :=
  ⟨[], by simp⟩

theorem exists_suffix_append {ps t : List Str} (h : ∃ q, t = ps ++ q)
    (x : List Str) : ∃ q, t ++ x = ps ++ q := by
  obtain ⟨q, rfl⟩ := h
  exact ⟨q ++ x, by rw [List.append_assoc]⟩

theorem exists_suffix_trans {ps t u : List Str} (h1 : ∃ q, t = ps ++ q)
    (h2 : ∃ q, u = t ++ q) : ∃ q, u = ps ++ q := by
  obtain ⟨a, rfl⟩ := h1
  obtain ⟨b, rfl⟩ := h2
  exact ⟨a ++ b, by rw [List.append_assoc]⟩

mutual

/-- `walk` only appends parts: its result extends the accumulator. -/
theorem walk_append_only (n : Node) (ps : List Str) :
    ∃ q, walk n ps = ps ++ q := by
  cases n with
  | text s => exact ⟨[s], rfl⟩
  | elem nm attrs cs =>
    simp only [walk]
    repeat' split
    all_goals
      first
      | exact exists_suffix_refl ps
      | exact exists_suffix_append (exists_suffix_refl ps) _
      | exact exists_suffix_append (exists_suffix_append (exists_suffix_refl ps) _) _
      | exact exists_suffix_append
          (exists_suffix_append (exists_suffix_append (exists_suffix_refl ps) _) _) _
      | exact walkList_append_only cs ps
      | exact exists_suffix_append (walkList_append_only cs ps) _
      | exact exists_suffix_trans (exists_suffix_append (exists_suffix_refl ps) _)
          (walkList_append_only cs _)
      | exact exists_suffix_append
          (exists_suffix_trans (exists_suffix_append (exists_suffix_refl ps) _)
            (walkList_append_only cs _)) _

/-- `walkList` only appends parts. -/
theorem walkList_append_only (cs : List Node) (ps : List Str) :
    ∃ q, walkList cs ps = ps ++ q := by
  cases cs with
  | nil => exact exists_suffix_refl ps
  | cons c cs =>
    simp only [walkList]
    exact exists_suffix_trans (walk_append_only c ps)
      (walkList_append_only cs (walk c ps))

end

theorem walk_eq_delta (n : Node) (ps : List Str) :
    walk n ps = ps ++ walkDelta n ps := by
  obtain ⟨q, hq⟩ := walk_append_only n ps
  unfold walkDelta
  rw [hq, List.drop_left]

/-- Walking a concatenated forest is walking the two halves in order. -/
theorem walkList_append (l1 l2 : List Node) (ps : List Str) :
    walkList (l1 ++ l2) ps = walkList l2 (walkList l1 ps) := by
  induction l1 generalizing ps with
  | nil => rfl
  | cons c t ih =>
    simp only [List.cons_append, walkList]
    exact ih (walk c ps)

/-- The closing separator step of `walk` establishes the block-post
invariant, whatever parts the element body produced. -/
theorem block_post_aux {P : Prop} [Decidable P] (hP : P) (t : List Str) :
    (if P ∧ (t = [] ∨ ¬endsNl2 (t.getLastD []) = true) then
      t ++ [['\n', '\n']] else t) ≠ [] ∧
      endsNl2 ((if P ∧ (t = [] ∨ ¬endsNl2 (t.getLastD []) = true) then
        t ++ [['\n', '\n']] else t).getLastD []) = true := by
  split
  next h =>
    refine ⟨by simp, ?_⟩
    rw [List.getLastD_concat]
    decide
  next h =>
    have h2 : ¬(t = [] ∨ ¬endsNl2 (t.getLastD []) = true) :=
      fun hor => h ⟨hP, hor⟩
    push_neg at h2
    exact ⟨h2.1, h2.2⟩

/-- After walking a block element the parts list is nonempty and its last
part ends with the blank-line separator. -/
theorem walk_block_post (nm : Str) (attrs : List (Str × Str)) (cs : List Node)
    (ps : List Str) (hb : nm ∈ BLOCK_LIKE) :
    walk (Node.elem nm attrs cs) ps ≠ [] ∧
      endsNl2 ((walk (Node.elem nm attrs cs) ps).getLastD []) = true := by
  have hss : ¬(nm = "script".data ∨ nm = "style".data) := by
    rintro (rfl | rfl) <;> exact absurd hb (by decide)
  have hbr : nm ≠ "br".data := by
    rintro rfl
    exact absurd hb (by decide)
  simp only [walk]
  rw [if_neg hss, if_neg hbr]
  exact block_post_aux hb _

/-- Walking an ordinary container element from any accumulator: the result
is the walk of the children from the pre-separator state, possibly followed
by one trailing separator part. -/
theorem walk_elem_shape (nm : Str) (attrs : List (Str × Str))
    (children : List Node) (ps : List Str) (hnm : ordinaryName nm) :
    ∃ T, walk (Node.elem nm attrs children) ps =
      walkList children (enterParts nm ps) ++ T := by
  obtain ⟨hss, hbr, hcode, hpre⟩ := hnm
  simp only [walk]
  rw [if_neg hss, if_neg hbr]
  rw [show (if nm ∈ BLOCK_LIKE ∧ ps ≠ [] ∧ ¬endsNl2 (ps.getLastD []) = true then
      ps ++ [['\n', '\n']] else ps) = enterParts nm ps from rfl]
  rw [if_neg hcode, if_neg hpre]
  split
  · exact ⟨[['\n', '\n']], rfl⟩
  · exact ⟨[], by simp⟩

/-- Walking a tree built from an ancestor context of ordinary container
elements reaches the hole with the parts `ctxPreAux` predicts; everything
the context adds after the hole is a suffix. -/
theorem walk_plugCtx : ∀ (fs : List CtxFrame),
    (∀ f ∈ fs, ordinaryName f.name) → ∀ (n : Node) (ps : List Str),
    ∃ T, walk (plugCtx fs n) ps = walk n (ctxPreAux fs ps) ++ T := by
  intro fs
  induction fs with
  | nil =>
    intro _ n ps
    exact ⟨[], by simp [plugCtx, ctxPreAux]⟩
  | cons f fs ih =>
    intro hfs n ps
    have hf := hfs f (List.mem_cons_self _ _)
    have hfs2 : ∀ g ∈ fs, ordinaryName g.name :=
      fun g hg => hfs g (List.mem_cons_of_mem _ hg)
    obtain ⟨T1, hT1⟩ := walk_elem_shape f.name f.attrs
      (f.before ++ plugCtx fs n :: f.after) ps hf
    rw [show plugCtx (f :: fs) n =
      Node.elem f.name f.attrs (f.before ++ plugCtx fs n :: f.after) from rfl,
      hT1, walkList_append]
    rw [show walkList (plugCtx fs n :: f.after)
        (walkList f.before (enterParts f.name ps)) =
      walkList f.after (walk (plugCtx fs n)
        (walkList f.before (enterParts f.name ps))) from rfl]
    obtain ⟨T2, hT2⟩ := ih hfs2 n (walkList f.before (enterParts f.name ps))
    rw [hT2]
    obtain ⟨T3, hT3⟩ := walkList_append_only f.after
      (walk n (ctxPreAux fs (walkList f.before (enterParts f.name ps))) ++ T2)
    rw [hT3]
    refine ⟨T2 ++ T3 ++ T1, ?_⟩
    rw [show ctxPreAux (f :: fs) ps =
      ctxPreAux fs (walkList f.before (enterParts f.name ps)) from rfl]
    simp [List.append_assoc]

/-! Newline-run decompositions and `collapseNl` behaviour at a block
junction. -/

theorem endsNl2_exists {s : Str} (h : endsNl2 s = true) :
    ∃ E, s = E ++ ['\n', '\n'] := by
  unfold endsNl2 at h
  obtain ⟨r, hr⟩ := startsW_iff.mp h
  have hsplit : s.take (s.length - 2) ++ s.drop (s.length - 2) = s :=
    List.take_append_drop _ _
  have hlen : (s.drop (s.length - 2)).length ≤ 2 := by
    rw [List.length_drop]
    omega
  rw [hr] at hlen
  have hr0 : r = [] := by
    simp only [List.length_append, List.length_cons] at hlen
    exact List.eq_nil_of_length_eq_zero (by omega)
  refine ⟨s.take (s.length - 2), ?_⟩
  conv_lhs => rw [← hsplit]
  rw [hr, hr0, List.append_nil]

theorem flatten_endsNl2 {ps : List Str} (hne : ps ≠ [])
    (h : endsNl2 (ps.getLastD []) = true) :
    ∃ E, ps.flatten = E ++ ['\n', '\n'] := by
  rcases List.eq_nil_or_concat ps with rfl | ⟨L, b, rfl⟩
  · exact absurd rfl hne
  · rw [List.concat_eq_append] at h ⊢
    rw [List.getLastD_concat] at h
    obtain ⟨E0, hE0⟩ := endsNl2_exists h
    refine ⟨L.flatten ++ E0, ?_⟩
    rw [List.flatten_append, hE0]
    simp

theorem dropRightWhile_getLast {p : Char → Bool} :
    ∀ {l : Str} {g : Char},
      (dropRightWhile p l).getLast? = some g → p g = false := by
  intro l
  induction l with
  | nil => intro g h; cases h
  | cons c t ih =>
    intro g h
    simp only [dropRightWhile] at h
    split at h
    next hx => cases h
    next hx =>
      by_cases hr : dropRightWhile p t = []
      · have hpc : ¬p c = true := fun hpc => hx ⟨hr, hpc⟩
        rw [hr] at h
        injection h with e
        subst e
        exact (Bool.not_eq_true _) ▸ hpc
      · cases hrr : dropRightWhile p t with
        | nil => exact absurd hrr hr
        | cons b rt =>
          rw [hrr, List.getLast?_cons_cons] at h
          rw [← hrr] at h
          exact ih h

theorem head?_dropWhile {p : Char → Bool} :
    ∀ {l : Str} {d : Char}, (l.dropWhile p).head? = some d → p d = false := by
  intro l
  induction l with
  | nil => intro d h; cases h
  | cons c t ih =>
    intro d h
    rw [List.dropWhile_cons] at h
    split at h
    next hx => exact ih h
    next hx =>
      injection h with e
      subst e
      simpa using hx

theorem dropRightWhile_ne_nil_of_mem {p : Char → Bool} {l : Str} {x : Char}
    (hx : x ∈ l) (hpx : p x = false) : dropRightWhile p l ≠ [] := by
  intro hnil
  obtain ⟨r, hr, hall⟩ := dropRightWhile_spec p l
  rw [hnil, List.nil_append] at hr
  rw [hr] at hx
  rw [hall x hx] at hpx
  cases hpx

/-- A string with a non-newline character splits off its maximal trailing
newline run. -/
theorem trailing_nl_split (s : Str) (hc : ∃ c ∈ s, c ≠ '\n') :
    ∃ G g k, s = G ++ [g] ++ List.replicate k '\n' ∧ g ≠ '\n' := by
  obtain ⟨c, hcm, hcn⟩ := hc
  have hD := dropRightWhile_ne_nil_of_mem (p := fun c => decide (c = '\n'))
    hcm (by simp [hcn])
  obtain ⟨r, hr, hall⟩ := dropRightWhile_spec (fun c => decide (c = '\n')) s
  rcases List.eq_nil_or_concat
      (dropRightWhile (fun c => decide (c = '\n')) s) with hnil | ⟨L, g, hLg⟩
  · exact absurd hnil hD
  · rw [List.concat_eq_append] at hLg
    have hg : g ≠ '\n' := by
      have := dropRightWhile_getLast (p := fun c => decide (c = '\n'))
        (l := s) (g := g) (by rw [hLg]; exact List.getLast?_concat _)
      simpa using this
    refine ⟨L, g, r.length, ?_, hg⟩
    have hrep : r = List.replicate r.length '\n' := by
      rw [List.eq_replicate_length]
      intro b hb
      simpa using hall b hb
    conv_lhs => rw [hr]
    rw [hLg, ← hrep]

/-- Every character kept by `takeWhile` satisfies the predicate. -/
theorem mem_takeWhile_sat {p : Char → Bool} :
    ∀ {l : Str} {x : Char}, x ∈ l.takeWhile p → p x = true := by
  intro l
  induction l with
  | nil => intro x h; cases h
  | cons c t ih =>
    intro x h
    rw [List.takeWhile_cons] at h
    split at h
    next hc =>
      rcases List.mem_cons.mp h with rfl | h2
      · exact hc
      · exact ih h2
    next hc => cases h

/-- A string with a non-newline character splits off its maximal leading
newline run. -/
theorem leading_nl_split (s : Str) (hc : ∃ c ∈ s, c ≠ '\n') :
    ∃ k d H, s = List.replicate k '\n' ++ d :: H ∧ d ≠ '\n' := by
  obtain ⟨c, hcm, hcn⟩ := hc
  have hsplit := List.takeWhile_append_dropWhile
    (p := fun c => decide (c = '\n')) (l := s)
  have hD : s.dropWhile (fun c => decide (c = '\n')) ≠ [] := by
    intro hnil
    have : ∀ x ∈ s, decide (x = '\n') = true := by
      intro x hx
      have hx2 : x ∈ s.takeWhile (fun c => decide (c = '\n')) := by
        rw [← hsplit] at hx
        rcases List.mem_append.mp hx with h1 | h1
        · exact h1
        · rw [hnil] at h1
          cases h1
      exact mem_takeWhile_sat hx2
    have := this c hcm
    simp [hcn] at this
  cases hDd : s.dropWhile (fun c => decide (c = '\n')) with
  | nil => exact absurd hDd hD
  | cons d H =>
    have hd : d ≠ '\n' := by
      have := head?_dropWhile (p := fun c => decide (c = '\n'))
        (l := s) (d := d) (by rw [hDd]; rfl)
      simpa using this
    refine ⟨(s.takeWhile (fun c => decide (c = '\n'))).length, d, H, ?_, hd⟩
    have hrep : s.takeWhile (fun c => decide (c = '\n')) =
        List.replicate (s.takeWhile (fun c => decide (c = '\n'))).length '\n' := by
      rw [List.eq_replicate_length]
      intro b hb
      simpa using mem_takeWhile_sat hb
    conv_lhs => rw [← hsplit]
    rw [← hrep, hDd]

/-- The trailing run carrying the separator has length at least two. -/
theorem trailing_run_ge_two {G : Str} {g : Char} {k : Nat} {E : Str}
    (h : G ++ [g] ++ List.replicate k '\n' = E ++ ['\n', '\n'])
    (hg : g ≠ '\n') : 2 ≤ k := by
  by_contra hk
  push_neg at hk
  interval_cases k
  · rw [List.replicate_zero, List.append_nil] at h
    have h1 : (G ++ [g]).getLast? = some g := List.getLast?_concat _
    rw [h] at h1
    have h2 : (E ++ ['\n', '\n']).getLast? = some '\n' := by
      rw [show E ++ ['\n', '\n'] = (E ++ ['\n']) ++ ['\n'] by simp]
      exact List.getLast?_concat _
    rw [h1] at h2
    injection h2 with e
    exact hg e
  · rw [List.replicate_one] at h
    have h' : (G ++ [g]) ++ ['\n'] = (E ++ ['\n']) ++ ['\n'] := by
      conv_rhs => rw [List.append_assoc]
      exact h
    have h2 := congrArg List.dropLast h'
    rw [List.dropLast_concat, List.dropLast_concat] at h2
    have h3 : (G ++ [g]).getLast? = some g := List.getLast?_concat _
    rw [h2] at h3
    have h4 : (E ++ ['\n']).getLast? = some '\n' := List.getLast?_concat _
    rw [h3] at h4
    injection h4 with e
    exact hg e

/-- Newline collapsing splits at a non-newline character. -/
theorem collapseNlGo_append_break (A : Str) (c : Char) (hc : c ≠ '\n')
    (B : Str) : ∀ k, collapseNlGo (A ++ c :: B) k =
      collapseNlGo (A ++ [c]) k ++ collapseNlGo B 0 := by
  induction A with
  | nil =>
    intro k
    simp only [List.nil_append]
    rw [collapseNlGo_cons_other hc, collapseNlGo_cons_other hc]
    simp [collapseNlGo]
  | cons a A ih =>
    intro k
    by_cases ha : a = '\n'
    · subst ha
      by_cases hk : 2 ≤ k
      · simp only [List.cons_append, collapseNlGo]
        rw [if_pos True.intro, if_pos hk, if_pos True.intro, if_pos hk]
        exact ih k
      · simp only [List.cons_append]
        rw [collapseNlGo_cons_nl (by omega), collapseNlGo_cons_nl (by omega)]
        rw [ih (k + 1)]
        simp
    · simp only [List.cons_append]
      rw [collapseNlGo_cons_other ha, collapseNlGo_cons_other ha]
      rw [ih 0]
      simp

/-- With the counter already saturated, a newline run is dropped entirely up
to the next non-newline character. -/
theorem collapseNlGo_run_sat (j : Nat) (d : Char) (hd : d ≠ '\n') (V : Str) :
    collapseNlGo (List.replicate j '\n' ++ d :: V) 2 =
      d :: collapseNlGo V 0 := by
  induction j with
  | zero =>
    rw [List.replicate_zero, List.nil_append, collapseNlGo_cons_other hd]
  | succ j ih =>
    rw [List.replicate_succ, List.cons_append]
    simp only [collapseNlGo]
    rw [if_pos True.intro, if_pos (by omega)]
    exact ih

/-- A newline run of length at least two collapses to exactly two newlines
before the next non-newline character. -/
theorem collapseNlGo_run (k : Nat) (hk : 2 ≤ k) (d : Char) (hd : d ≠ '\n')
    (V : Str) : collapseNlGo (List.replicate k '\n' ++ d :: V) 0 =
      '\n' :: '\n' :: d :: collapseNlGo V 0 := by
  obtain ⟨m, rfl⟩ : ∃ m, k = 2 + m := ⟨k - 2, by omega⟩
  rw [show (2 + m) = (m + 1) + 1 by omega, List.replicate_succ,
    List.replicate_succ, List.cons_append, List.cons_append]
  rw [collapseNlGo_cons_nl (by omega), collapseNlGo_cons_nl (by omega)]
  exact congrArg ('\n' :: '\n' :: ·) (collapseNlGo_run_sat m d hd V)

/-- Newline collapsing preserves the last character when it is not a
newline. -/
theorem collapseNlGo_concat_last (A : Str) (c : Char) (hc : c ≠ '\n') :
    ∀ k, ∃ A2, collapseNlGo (A ++ [c]) k = A2 ++ [c] := by
  induction A with
  | nil =>
    intro k
    rw [List.nil_append, collapseNlGo_cons_other hc]
    exact ⟨[], by simp [collapseNlGo]⟩
  | cons a A ih =>
    intro k
    by_cases ha : a = '\n'
    · subst ha
      by_cases hk : 2 ≤ k
      · rw [List.cons_append]
        simp only [collapseNlGo]
        rw [if_pos True.intro, if_pos hk]
        exact ih k
      · rw [List.cons_append, collapseNlGo_cons_nl (by omega)]
        obtain ⟨A2, hA2⟩ := ih (k + 1)
        exact ⟨'\n' :: A2, by rw [hA2, List.cons_append]⟩
    · rw [List.cons_append, collapseNlGo_cons_other ha]
      obtain ⟨A2, hA2⟩ := ih 0
      exact ⟨a :: A2, by rw [hA2, List.cons_append]⟩

/-- Newline collapsing only removes newline characters, so the
non-whitespace projection is unchanged. -/
theorem collapseNlGo_filter (l : Str) : ∀ k,
    (collapseNlGo l k).filter (fun c => !isSpace c) =
      l.filter (fun c => !isSpace c) := by
  induction l with
  | nil => intro k; rfl
  | cons c t ih =>
    intro k
    by_cases hc : c = '\n'
    · subst hc
      have hnl : (!isSpace '\n') = false := by decide
      by_cases hk : 2 ≤ k
      · simp only [collapseNlGo]
        rw [if_pos True.intro, if_pos hk]
        rw [ih k, List.filter_cons, hnl]
        simp
      · rw [collapseNlGo_cons_nl (by omega)]
        rw [List.filter_cons, List.filter_cons, hnl]
        simp only [Bool.false_eq_true, if_false]
        exact ih (k + 1)
    · rw [collapseNlGo_cons_other hc]
      rw [List.filter_cons, List.filter_cons]
      rw [ih 0]

theorem getLast?_append_of_right_ne {A B : Str} (hB : B ≠ []) :
    (A ++ B).getLast? = B.getLast? := by
  rw [List.getLast?_append]
  cases hBg : B.getLast? with
  | none => exact absurd (List.getLast?_eq_none_iff.mp hBg) hB
  | some x => rfl

theorem head?_append_of_left_ne {A B : Str} (hA : A ≠ []) :
    (A ++ B).head? = A.head? := by
  rw [List.head?_append]
  cases hAg : A.head? with
  | none => exact absurd (List.head?_eq_none_iff.mp hAg) hA
  | some x => rfl

theorem filter_replicate_nl (n : Nat) :
    (List.replicate n '\n').filter (fun c => !isSpace c) = [] := by
  rw [List.filter_eq_nil_iff]
  intro a ha
  rw [List.eq_of_mem_replicate ha]
  decide

/-- The junction of a flattened parts list that splits as `R1 ++ S`, with
`R1` ending in a blank-line separator and both halves visibly non-empty:
after newline collapsing and stripping, the output is `A ++ "\n\n" ++ B`
with the junction run collapsed to exactly two newlines and each side
carrying exactly the non-whitespace content of its half. -/
theorem junction_master {F R1 S : Str} (hF : F = R1 ++ S)
    (hE : ∃ E, R1 = E ++ ['\n', '\n'])
    (hc1 : ∃ c ∈ R1, isSpace c = false)
    (hc2 : ∃ c ∈ S, isSpace c = false) :
    ∃ A B, pyStrip (collapseNl F) = A ++ '\n' :: '\n' :: B ∧
      A ≠ [] ∧ B ≠ [] ∧ A.getLast? ≠ some '\n' ∧ B.head? ≠ some '\n' ∧
      A.filter (fun c => !isSpace c) = R1.filter (fun c => !isSpace c) ∧
      B.filter (fun c => !isSpace c) = S.filter (fun c => !isSpace c) := by
  obtain ⟨E, hEe⟩ := hE
  have hc1n : ∃ c ∈ R1, c ≠ '\n' := by
    obtain ⟨c, hm, hs⟩ := hc1
    refine ⟨c, hm, ?_⟩
    intro hcn
    rw [hcn] at hs
    exact absurd hs (by decide)
  obtain ⟨G, g, k1, hGs, hgn⟩ := trailing_nl_split R1 hc1n
  have hk1 : 2 ≤ k1 := trailing_run_ge_two (by rw [← hGs]; exact hEe) hgn
  have hc2n : ∃ c ∈ S, c ≠ '\n' := by
    obtain ⟨c, hm, hs⟩ := hc2
    refine ⟨c, hm, ?_⟩
    intro hcn
    rw [hcn] at hs
    exact absurd hs (by decide)
  obtain ⟨k2, d, H, hSs, hdn⟩ := leading_nl_split S hc2n
  have hFform : F = (G ++ [g]) ++ (List.replicate (k1 + k2) '\n' ++ d :: H) := by
    rw [hF, hGs, hSs, List.replicate_add]
    simp only [List.append_assoc]
  have hcol : collapseNl F =
      collapseNlGo (G ++ [g]) 0 ++ '\n' :: '\n' :: d :: collapseNlGo H 0 := by
    unfold collapseNl
    rw [hFform]
    rw [show (G ++ [g]) ++ (List.replicate (k1 + k2) '\n' ++ d :: H) =
      G ++ g :: (List.replicate (k1 + k2) '\n' ++ d :: H) from by simp]
    rw [collapseNlGo_append_break G g hgn _ 0]
    rw [collapseNlGo_run (k1 + k2) (by omega) d hdn H]
  obtain ⟨G2, hG2⟩ := collapseNlGo_concat_last G g hgn 0
  have hA0f : (G2 ++ [g]).filter (fun c => !isSpace c) =
      R1.filter (fun c => !isSpace c) := by
    rw [← hG2, collapseNlGo_filter, hGs]
    conv_rhs => rw [List.filter_append]
    rw [filter_replicate_nl, List.append_nil]
  have hB0f : (d :: collapseNlGo H 0).filter (fun c => !isSpace c) =
      S.filter (fun c => !isSpace c) := by
    rw [hSs, List.filter_append, filter_replicate_nl, List.nil_append]
    simp only [List.filter_cons, collapseNlGo_filter]
  have hc1A : ∃ c, c ∈ (G2 ++ [g]) ∧ isSpace c = false := by
    obtain ⟨c, hm, hs⟩ := hc1
    have hcf : c ∈ R1.filter (fun c => !isSpace c) :=
      List.mem_filter.mpr ⟨hm, by rw [hs]; rfl⟩
    rw [← hA0f] at hcf
    exact ⟨c, (List.mem_filter.mp hcf).1, hs⟩
  have hc2B : ∃ c, c ∈ (d :: collapseNlGo H 0) ∧ isSpace c = false := by
    obtain ⟨c, hm, hs⟩ := hc2
    have hcf : c ∈ S.filter (fun c => !isSpace c) :=
      List.mem_filter.mpr ⟨hm, by rw [hs]; rfl⟩
    rw [← hB0f] at hcf
    exact ⟨c, (List.mem_filter.mp hcf).1, hs⟩
  obtain ⟨c1m, hc1m, hc1s⟩ := hc1A
  obtain ⟨c2m, hc2m, hc2s⟩ := hc2B
  obtain ⟨hdw, hdwne⟩ := dropWhile_append_of_nonWs
    (X := G2 ++ [g]) (R := '\n' :: '\n' :: (d :: collapseNlGo H 0)) hc1m hc1s
  have hBne : dropRightWhile isSpace (d :: collapseNlGo H 0) ≠ [] :=
    dropRightWhile_ne_nil_of_mem hc2m hc2s
  obtain ⟨r, hrB, hallB⟩ := dropRightWhile_spec isSpace (d :: collapseNlGo H 0)
  refine ⟨(G2 ++ [g]).dropWhile isSpace,
    dropRightWhile isSpace (d :: collapseNlGo H 0), ?_, hdwne, hBne, ?_, ?_, ?_, ?_⟩
  · rw [hcol, hG2]
    unfold pyStrip
    rw [← hdw]
    rw [show (G2 ++ [g]).dropWhile isSpace ++ '\n' :: '\n' :: (d :: collapseNlGo H 0) =
      ((G2 ++ [g]).dropWhile isSpace ++ ['\n', '\n']) ++ (d :: collapseNlGo H 0)
      from by simp]
    rw [dropRightWhile_append isSpace _ _, if_neg hBne]
    rw [List.append_assoc]
    rfl
  · have hA0last : (G2 ++ [g]).getLast? = some g := List.getLast?_concat _
    have h3 : ((G2 ++ [g]).takeWhile isSpace ++
        (G2 ++ [g]).dropWhile isSpace).getLast? = some g := by
      rw [List.takeWhile_append_dropWhile]
      exact hA0last
    rw [getLast?_append_of_right_ne hdwne] at h3
    rw [h3]
    exact fun hcon => hgn (Option.some.inj hcon)
  · have hh : (dropRightWhile isSpace (d :: collapseNlGo H 0) ++ r).head? =
        some d := by
      rw [← hrB]
      rfl
    rw [head?_append_of_left_ne hBne] at hh
    rw [hh]
    exact fun hcon => hdn (Option.some.inj hcon)
  · have htw : ((G2 ++ [g]).takeWhile isSpace).filter (fun c => !isSpace c) = [] := by
      rw [List.filter_eq_nil_iff]
      intro a ha
      rw [mem_takeWhile_sat ha]
      decide
    have h4 : (G2 ++ [g]).filter (fun c => !isSpace c) =
        ((G2 ++ [g]).dropWhile isSpace).filter (fun c => !isSpace c) := by
      conv_lhs => rw [← List.takeWhile_append_dropWhile (p := isSpace) (l := G2 ++ [g])]
      rw [List.filter_append, htw, List.nil_append]
    rw [← h4]
    exact hA0f
  · have hrf : r.filter (fun c => !isSpace c) = [] := by
      rw [List.filter_eq_nil_iff]
      intro a ha
      rw [hallB a ha]
      decide
    have h5 : (d :: collapseNlGo H 0).filter (fun c => !isSpace c) =
        (dropRightWhile isSpace (d :: collapseNlGo H 0)).filter
          (fun c => !isSpace c) := by
      conv_lhs => rw [hrB]
      rw [List.filter_append, hrf, List.append_nil]
    rw [← h5]
    exact hB0f

/-- C6: block separation.  In a content subtree, whenever two block-set
elements with visibly non-empty content are adjacent children of an element
nested at any depth below the extraction root — every enclosing element an
ordinary container, with arbitrary siblings at every level and arbitrary
nesting inside each block — the extracted output of `_text_from_dom` is
`A ++ "\n\n" ++ B`: the two texts are separated by exactly one blank line —
`A` ends with a non-newline character and `B` starts with a non-newline
character, so the junction holds exactly two newlines, never fewer and
never more — and `A` and `B` carry exactly the non-whitespace content of,
respectively, everything through the first block and everything from the
second block on. -/
theorem C6_block_separation
    (fs : List CtxFrame) (nm : Str) (attrs : List (Str × Str))
    (xs ys : List Node)
    (n1 : Str) (a1 : List (Str × Str)) (c1 : List Node)
    (n2 : Str) (a2 : List (Str × Str)) (c2 : List Node)
    (hfs : ∀ f ∈ fs, ordinaryName f.name) (hnm : ordinaryName nm)
    (hb1 : n1 ∈ BLOCK_LIKE) (hb2 : n2 ∈ BLOCK_LIKE)
    (h1 : ∃ c ∈ (walkDelta (Node.elem n1 a1 c1)
      (walkList xs (enterParts nm (ctxPre fs)))).flatten, isSpace c = false)
    (h2 : ∃ c ∈ (walkDelta (Node.elem n2 a2 c2)
      (walk (Node.elem n1 a1 c1)
        (walkList xs (enterParts nm (ctxPre fs))))).flatten,
      isSpace c = false) :
    ∃ A B,
      text_from_dom (plugCtx fs (Node.elem nm attrs
        (xs ++ Node.elem n1 a1 c1 :: Node.elem n2 a2 c2 :: ys))) =
        A ++ '\n' :: '\n' :: B ∧
      A ≠ [] ∧ B ≠ [] ∧ A.getLast? ≠ some '\n' ∧ B.head? ≠ some '\n' ∧
      A.filter (fun c => !isSpace c) =
        ((walk (Node.elem n1 a1 c1)
          (walkList xs (enterParts nm (ctxPre fs)))).flatten).filter
            (fun c => !isSpace c) ∧
      B.filter (fun c => !isSpace c) =
        (((walk (plugCtx fs (Node.elem nm attrs
            (xs ++ Node.elem n1 a1 c1 :: Node.elem n2 a2 c2 :: ys))) []).flatten).drop
          ((walk (Node.elem n1 a1 c1)
            (walkList xs (enterParts nm (ctxPre fs)))).flatten).length).filter
            (fun c => !isSpace c) := by
  obtain ⟨T1, hplug⟩ := walk_plugCtx fs hfs
    (Node.elem nm attrs (xs ++ Node.elem n1 a1 c1 :: Node.elem n2 a2 c2 :: ys)) []
  have hplug2 : walk (plugCtx fs (Node.elem nm attrs
      (xs ++ Node.elem n1 a1 c1 :: Node.elem n2 a2 c2 :: ys))) [] =
      walk (Node.elem nm attrs
        (xs ++ Node.elem n1 a1 c1 :: Node.elem n2 a2 c2 :: ys))
        (ctxPre fs) ++ T1 := hplug
  obtain ⟨T2, hshape⟩ := walk_elem_shape nm attrs
    (xs ++ Node.elem n1 a1 c1 :: Node.elem n2 a2 c2 :: ys) (ctxPre fs) hnm
  have hwl : walkList (xs ++ Node.elem n1 a1 c1 :: Node.elem n2 a2 c2 :: ys)
      (enterParts nm (ctxPre fs)) =
      walkList ys (walk (Node.elem n2 a2 c2) (walk (Node.elem n1 a1 c1)
        (walkList xs (enterParts nm (ctxPre fs))))) := by
    rw [walkList_append]
    rfl
  obtain ⟨D3, hD3⟩ := walkList_append_only ys
    (walk (Node.elem n2 a2 c2) (walk (Node.elem n1 a1 c1)
      (walkList xs (enterParts nm (ctxPre fs)))))
  have hpost := walk_block_post n1 a1 c1
    (walkList xs (enterParts nm (ctxPre fs))) hb1
  obtain ⟨E, hE⟩ := flatten_endsNl2 hpost.1 hpost.2
  have hP2 := walk_eq_delta (Node.elem n2 a2 c2)
    (walk (Node.elem n1 a1 c1) (walkList xs (enterParts nm (ctxPre fs))))
  have hF : (walk (plugCtx fs (Node.elem nm attrs
      (xs ++ Node.elem n1 a1 c1 :: Node.elem n2 a2 c2 :: ys))) []).flatten =
      (walk (Node.elem n1 a1 c1)
        (walkList xs (enterParts nm (ctxPre fs)))).flatten ++
        ((walkDelta (Node.elem n2 a2 c2)
            (walk (Node.elem n1 a1 c1)
              (walkList xs (enterParts nm (ctxPre fs))))).flatten ++
          (D3.flatten ++ (T2.flatten ++ T1.flatten))) := by
    rw [hplug2, hshape, hwl, hD3]
    conv_lhs => rw [hP2]
    simp only [List.flatten_append, List.append_assoc]
  have hdrop : (((walk (plugCtx fs (Node.elem nm attrs
      (xs ++ Node.elem n1 a1 c1 :: Node.elem n2 a2 c2 :: ys))) []).flatten).drop
        ((walk (Node.elem n1 a1 c1)
          (walkList xs (enterParts nm (ctxPre fs)))).flatten).length) =
      (walkDelta (Node.elem n2 a2 c2)
          (walk (Node.elem n1 a1 c1)
            (walkList xs (enterParts nm (ctxPre fs))))).flatten ++
        (D3.flatten ++ (T2.flatten ++ T1.flatten)) := by
    rw [hF]
    exact List.drop_left _ _
  have hc1 : ∃ c ∈ (walk (Node.elem n1 a1 c1)
      (walkList xs (enterParts nm (ctxPre fs)))).flatten,
      isSpace c = false := by
    obtain ⟨c, hm, hs⟩ := h1
    refine ⟨c, ?_, hs⟩
    rw [walk_eq_delta (Node.elem n1 a1 c1)
      (walkList xs (enterParts nm (ctxPre fs))), List.flatten_append]
    exact List.mem_append_right _ hm
  have hc2 : ∃ c ∈ (walkDelta (Node.elem n2 a2 c2)
      (walk (Node.elem n1 a1 c1)
        (walkList xs (enterParts nm (ctxPre fs))))).flatten ++
        (D3.flatten ++ (T2.flatten ++ T1.flatten)), isSpace c = false := by
    obtain ⟨c, hm, hs⟩ := h2
    exact ⟨c, List.mem_append_left _ hm, hs⟩
  obtain ⟨A, B, heq, hAne, hBne, hAl, hBh, hAf, hBf⟩ :=
    junction_master hF ⟨E, hE⟩ hc1 hc2
  refine ⟨A, B, ?_, hAne, hBne, hAl, hBh, hAf, ?_⟩
  · unfold text_from_dom
    exact heq
  · rw [hdrop]
    exact hBf

/-- C6 witness: a `div` holding a `section` whose two `p` children carry
the texts `One` and `Two` — a nested adjacent pair — extracts with exactly
one blank line between them. -/
theorem C6_block_separation_witness :
    (∀ f ∈ [CtxFrame.mk "div".data [] [] []], ordinaryName f.name) ∧
    ordinaryName ("section".data) ∧
    ("p".data ∈ BLOCK_LIKE) ∧
    (∃ c ∈ (walkDelta (Node.elem "p".data [] [Node.text "One".data])
      (walkList [] (enterParts "section".data
        (ctxPre [CtxFrame.mk "div".data [] [] []])))).flatten,
      isSpace c = false) ∧
    (∃ c ∈ (walkDelta (Node.elem "p".data [] [Node.text "Two".data])
      (walk (Node.elem "p".data [] [Node.text "One".data])
        (walkList [] (enterParts "section".data
          (ctxPre [CtxFrame.mk "div".data [] [] []]))))).flatten,
      isSpace c = false) ∧
    ∃ A B,
      text_from_dom (plugCtx [CtxFrame.mk "div".data [] [] []]
        (Node.elem "section".data []
          ([] ++ Node.elem "p".data [] [Node.text "One".data] ::
            Node.elem "p".data [] [Node.text "Two".data] :: []))) =
        A ++ '\n' :: '\n' :: B ∧
      A ≠ [] ∧ B ≠ [] ∧ A.getLast? ≠ some '\n' ∧ B.head? ≠ some '\n' ∧
      A.filter (fun c => !isSpace c) =
        ((walk (Node.elem "p".data [] [Node.text "One".data])
          (walkList [] (enterParts "section".data
            (ctxPre [CtxFrame.mk "div".data [] [] []])))).flatten).filter
              (fun c => !isSpace c) ∧
      B.filter (fun c => !isSpace c) =
        (((walk (plugCtx [CtxFrame.mk "div".data [] [] []]
            (Node.elem "section".data []
              ([] ++ Node.elem "p".data [] [Node.text "One".data] ::
                Node.elem "p".data [] [Node.text "Two".data] :: []))) []).flatten).drop
          ((walk (Node.elem "p".data [] [Node.text "One".data])
            (walkList [] (enterParts "section".data
              (ctxPre [CtxFrame.mk "div".data [] [] []])))).flatten).length).filter
              (fun c => !isSpace c) :=
  ⟨by decide, by decide, by decide, by decide, by decide,
    C6_block_separation [CtxFrame.mk "div".data [] [] []] "section".data []
      [] [] "p".data [] [Node.text "One".data]
      "p".data [] [Node.text "Two".data] (by decide) (by decide) (by decide)
      (by decide) (by decide) (by decide)⟩

end PressProof
